import Mathlib

/-!
# migratex: transactional schema migrations

A shallow embedding of `api/datastore/sql/migratex/migrate.go` and the
properties of its specification.

The database is the environment of the program.  It is modelled as a state
(`World`): the committed content, the working copy of the open transaction,
a script that says which of the coming database calls fail, and a trace of
the calls that were attempted.  Every Go function that talks to the database
becomes a function `World → result × World`.

What the model takes for granted:

* a call that fails has no effect on the content, and what a transaction
  wrote becomes the committed content when, and only when, `Commit` is
  executed;
* the operations of a migration are functions on the rest of the schema:
  they return an error or nil and do not write the table
  `schema_migrations`;
* one session works on the database: nothing else writes between two calls;
* `sort.Sort`, `sort.Reverse` and the type assertion are those of Go.
-/

namespace Migratex

/-! ## Errors -/

/-- Go `error` values that are not nil.  `ErrLocked`, `ErrDirty` and
`ErrOutOfOrder` are the sentinels of the package, `ErrNoRows` is
`sql.ErrNoRows`, `MySQLError` is a `*mysql.MySQLError` with its `Number`,
`pqError` is a `*pq.Error` with the name of its code, `errorString` is any
other error value; `text` is what `Error()` renders.  `MultiError` is the
compound error of the package. -/
inductive GoError where
  | ErrLocked
  | ErrDirty
  | ErrOutOfOrder
  | ErrNoRows
  | MySQLError (Number : Nat) (text : String)
  | pqError (codeName : String) (text : String)
  | errorString (text : String)
  | MultiError (Errs : List GoError)

/-- A Go value of type `error`: nil or an error. -/
abbrev error := Option GoError

/-- The separator-joined concatenation of `strings.Join`. -/
def stringsJoin : List String → String → String
  | [], _ => ""
  | [s], _ => s
  | s :: t :: rest, sep => s ++ sep ++ stringsJoin (t :: rest) sep

mutual
/-- The `Error()` method.  For `MultiError` it collects the messages of the
components and joins them with a newline (migrate.go 165-171). -/
def GoError.Error : GoError → String
  | .ErrLocked => "database is locked"
  | .ErrDirty => "database is dirty"
  | .ErrOutOfOrder => "non-contiguous migration attempted"
  | .ErrNoRows => "sql: no rows in result set"
  | .MySQLError _ text => text
  | .pqError _ text => text
  | .errorString text => text
  | .MultiError errs => stringsJoin (errorTexts errs) "\n"
/-- The loop `for _, e := range m.Errs { strs = append(strs, e.Error()) }`. -/
def errorTexts : List GoError → List String
  | [] => []
  | e :: es => e.Error :: errorTexts es
end

/-- The loop of `multiError` that keeps the entries that are not nil, in
order (migrate.go 156-161). -/
def compactErrs : List error → List GoError
  | [] => []
  | none :: rest => compactErrs rest
  | some e :: rest => e :: compactErrs rest

/-- The function `multiError(errs ...error)` (migrate.go 155-163). -/
def multiError (errs : List error) : GoError := .MultiError (compactErrs errs)

/-! ## Machine integers -/

/-- The constant `NilVersion`. -/
def NilVersion : Int := -1

/-- The least `int64`. -/
def minInt64 : Int := -(2 ^ 63)

/-- The greatest `int64`. -/
def maxInt64 : Int := 2 ^ 63 - 1

/-- The value of an integer expression in `int64` arithmetic. -/
def wrap64 (x : Int) : Int := (x + 2 ^ 63) % 2 ^ 64 - 2 ^ 63

/-! ## The database -/

/-- A row of the table `schema_migrations`: `(version, dirty)`. -/
abbrev Row := Int × Bool

/-- What a transaction sees: the table `schema_migrations` (`none` when the
table does not exist) and the rest of the schema, of a type `σ` chosen by
the migrations. -/
structure Store (σ : Type) where
  table : Option (List Row)
  schema : σ

/-- The calls left in the trace. -/
inductive Event where
  | begin
  | commit
  | rollback
  | lock
  | unlock
  | up (version : Int)
  | down (version : Int)
  deriving DecidableEq, Repr

/-- The state of the database and of the session.

* `driverName`: what `tx.DriverName()` returns;
* `missing`: the error this engine reports for a statement on a table that
  does not exist;
* `lockFree`: whether the advisory lock can be taken by this session;
* `script`: one entry for each coming database call, `some e` when the call
  fails with `e` and has no effect, `none` when it is executed; when the
  script is used up every call is executed;
* `committed`: the committed content;
* `work`: the content seen by the open transaction;
* `trace`: the calls attempted so far, oldest first. -/
structure World (σ : Type) where
  driverName : String
  missing : GoError
  lockFree : Bool
  script : List error
  committed : Store σ
  work : Store σ
  trace : List Event

variable {σ : Type}

/-- One round trip to the database: takes the next entry of the script. -/
def World.call (w : World σ) : error × World σ :=
  match w.script with
  | [] => (none, w)
  | r :: rest => (r, { w with script := rest })

/-- Records an attempted call. -/
def World.log (w : World σ) (ev : Event) : World σ :=
  { w with trace := w.trace ++ [ev] }

/-- The statement `CREATE TABLE IF NOT EXISTS schema_migrations (...)`. -/
def execCreate (w : World σ) : error × World σ :=
  match w.call with
  | (some e, w1) => (some e, w1)
  | (none, w1) =>
    match w1.work.table with
    | none => (none, { w1 with work := { w1.work with table := some [] } })
    | some _ => (none, w1)

/-- The statement `DELETE FROM schema_migrations`. -/
def execDelete (w : World σ) : error × World σ :=
  match w.call with
  | (some e, w1) => (some e, w1)
  | (none, w1) =>
    match w1.work.table with
    | none => (some w1.missing, w1)
    | some _ => (none, { w1 with work := { w1.work with table := some [] } })

/-- The statement `INSERT INTO schema_migrations (version, dirty) VALUES (?, ?)`.
It is only issued on the table that `execDelete` has just emptied, so the
primary key cannot clash. -/
def execInsert (version : Int) (dirty : Bool) (w : World σ) : error × World σ :=
  match w.call with
  | (some e, w1) => (some e, w1)
  | (none, w1) =>
    match w1.work.table with
    | none => (some w1.missing, w1)
    | some rows =>
      (none, { w1 with work := { w1.work with table := some (rows ++ [(version, dirty)]) } })

/-- The query `SELECT version, dirty FROM schema_migrations LIMIT 1` followed
by `Scan(&version, &dirty)`: the error, and the scanned values (the zero
values when there is an error). -/
def queryRow (w : World σ) : (error × Int × Bool) × World σ :=
  match w.call with
  | (some e, w1) => ((some e, 0, false), w1)
  | (none, w1) =>
    match w1.work.table with
    | none => ((some w1.missing, 0, false), w1)
    | some [] => ((some .ErrNoRows, 0, false), w1)
    | some (r :: _) => ((none, r.1, r.2), w1)

/-- Whether `p` is an initial segment of `s`. -/
def startsWith : List Char → List Char → Bool
  | _, [] => true
  | [], _ :: _ => false
  | a :: s, b :: p => a == b && startsWith s p

/-- The function `strings.Contains` on lists of characters. -/
def containsChars : List Char → List Char → Bool
  | [], p => p.isEmpty
  | a :: s, p => startsWith (a :: s) p || containsChars s p

/-- The function `strings.Contains`. -/
def stringsContains (s sub : String) : Bool := containsChars s.data sub.data

/-- The checks of `Version` that recognise a missing table: a MySQL error
with `Number == 0`, a pq error whose code is named `undefined_table`, or a
message that contains `no such table` (migrate.go 306-319). -/
def missingTable (e : GoError) : Bool :=
  (match e with
    | .MySQLError n _ => n == 0
    | _ => false) ||
  (match e with
    | .pqError name _ => name == "undefined_table"
    | _ => false) ||
  stringsContains e.Error "no such table"

/-- The function `Version(ctx, tx)` (migrate.go 298-326): the version, the
dirty flag and the error. -/
def Version (w : World σ) : (Int × Bool × error) × World σ :=
  match queryRow w with
  | ((some .ErrNoRows, _, _), w1) => ((NilVersion, false, none), w1)
  | ((some e, _, _), w1) =>
    if missingTable e then ((NilVersion, false, none), w1)
    else ((0, false, some e), w1)
  | ((none, version, dirty), w1) => ((version, dirty, none), w1)

/-- The function `SetVersion(ctx, tx, version, dirty)` (migrate.go 279-296). -/
def SetVersion (version : Int) (dirty : Bool) (w : World σ) : error × World σ :=
  match execDelete w with
  | (some e, w1) => (some e, w1)
  | (none, w1) =>
    if version ≥ 0 then
      match execInsert version dirty w1 with
      | (some e, w2) => (some e, w2)
      | (none, w2) => (none, w2)
    else (none, w1)

/-- The function `ensureVersionTable(ctx, tx)` (migrate.go 328-337). -/
def ensureVersionTable (w : World σ) : error × World σ := execCreate w

/-! ## The advisory lock -/

/-- The drivers of the first case of the switch in `lock` and `unlock`. -/
def postgresDrivers : List String := ["postgres", "pgx", "pq-timeouts", "cloudsqlpostgres"]

/-- The drivers of the second case of the switch in `lock` and `unlock`. -/
def mysqlDrivers : List String := ["mysql", "oci8", "ora", "goracle"]

/-- The error of the default case of the switch in `lock` and `unlock`. -/
def unsupported (driverName : String) : GoError :=
  .errorString ("unsupported database, please add this or fix: " ++ driverName)

/-- The function `lock(ctx, tx)` (migrate.go 226-255).  The query, on the
identifier made from the name of the table, scans `success`, which is true
when the lock was free. -/
def lock (w : World σ) : error × World σ :=
  let w0 := w.log .lock
  if w0.driverName ∈ postgresDrivers ∨ w0.driverName ∈ mysqlDrivers then
    match w0.call with
    | (some e, w1) => (some e, w1)
    | (none, w1) => if w1.lockFree then (none, w1) else (some .ErrLocked, w1)
  else if w0.driverName = "sqlite3" then (none, w0)
  else (some (unsupported w0.driverName), w0)

/-- The function `unlock(ctx, tx)` (migrate.go 257-277). -/
def unlock (w : World σ) : error × World σ :=
  let w0 := w.log .unlock
  if w0.driverName ∈ postgresDrivers ∨ w0.driverName ∈ mysqlDrivers then
    w0.call
  else if w0.driverName = "sqlite3" then (none, w0)
  else (some (unsupported w0.driverName), w0)

/-- The function `withLock(ctx, tx, f)` (migrate.go 127-146). -/
def withLock (f : World σ → error × World σ) (w : World σ) : error × World σ :=
  match lock w with
  | (some e, w1) => (some e, w1)
  | (none, w1) =>
    match f w1 with
    | (err, w2) =>
      match unlock w2 with
      | (some errU, w3) =>
        (match err with
          | none => (some errU, w3)
          | some e => (some (multiError [some e, some errU]), w3))
      | (none, w3) => (err, w3)

/-- The call `db.BeginTxx(ctx, nil)`: the new transaction sees the committed
content. -/
def BeginTxx (w : World σ) : error × World σ :=
  match (w.log .begin).call with
  | (some e, w1) => (some e, w1)
  | (none, w1) => (none, { w1 with work := w1.committed })

/-- The call `tx.Rollback()`, whose result the program drops: the committed
content stays as it was. -/
def Rollback (w : World σ) : World σ :=
  { (w.log .rollback).call.2 with work := (w.log .rollback).call.2.committed }

/-- The call `tx.Commit()`: when it is executed the content of the
transaction becomes the committed content; when it fails nothing changes. -/
def Commit (w : World σ) : error × World σ :=
  match (w.log .commit).call with
  | (some e, w1) => (some e, w1)
  | (none, w1) => (none, { w1 with committed := w1.work })

/-- The function `tx(ctx, db, f)` (migrate.go 114-125). -/
def tx (f : World σ → error × World σ) (w : World σ) : error × World σ :=
  match BeginTxx w with
  | (some e, w1) => (some e, w1)
  | (none, w1) =>
    match f w1 with
    | (some e, w2) => (some e, Rollback w2)
    | (none, w2) => Commit w2

/-! ## Migrations -/

/-- The interface `Migration`: the two operations act on the schema inside
the transaction (not on the table `schema_migrations`) and return an error
or nil; `Version()` is an `int64`, the same at every call. -/
structure Migration (σ : Type) where
  Up : σ → error × σ
  Down : σ → error × σ
  Version : Int

/-- The call `m.Up(tx)`. -/
def callUp (m : Migration σ) (w : World σ) : error × World σ :=
  let w1 := w.log (.up m.Version)
  ((m.Up w1.work.schema).1, { w1 with work := { w1.work with schema := (m.Up w1.work.schema).2 } })

/-- The call `m.Down(tx)`. -/
def callDown (m : Migration σ) (w : World σ) : error × World σ :=
  let w1 := w.log (.down m.Version)
  ((m.Down w1.work.schema).1,
    { w1 with work := { w1.work with schema := (m.Down w1.work.schema).2 } })

/-- The function literal passed to `withLock` in `run` (migrate.go 175-211).
The error of `Version` and the error of the first `SetVersion` are assigned
to `err` and overwritten before they are looked at. -/
def runBody (m : Migration σ) (up : Bool) (w : World σ) : error × World σ :=
  match Version w with
  | ((curVersion, dirty, _), w1) =>
    if dirty then (some .ErrDirty, w1)
    else if up ∧ curVersion ≠ NilVersion ∧ m.Version ≠ wrap64 (curVersion + 1) then
      (some .ErrOutOfOrder, w1)
    else if ¬ up ∧ m.Version ≠ curVersion then (some .ErrOutOfOrder, w1)
    else
      let version := if up then m.Version else wrap64 (m.Version - 1)
      match SetVersion m.Version true w1 with
      | (_, w2) =>
        match (if up then callUp m w2 else callDown m w2) with
        | (some e, w3) => (some e, w3)
        | (none, w3) => SetVersion version false w3

/-- The function `run(ctx, db, m, up)` (migrate.go 173-213). -/
def run (m : Migration σ) (up : Bool) (w : World σ) : error × World σ :=
  tx (withLock (runBody m up)) w

/-- A value of the interface type `sort.Interface`, by its dynamic type:
the slice type `sorted` of the package, or the `*sort.reverse` that
`sort.Reverse` wraps around another value. -/
inductive SortInterface (σ : Type) where
  | sorted (migs : List (Migration σ))
  | reverse (data : SortInterface σ)

/-- The function `sort.Reverse`: it returns `&reverse{data}` and sorts
nothing. -/
def sortReverse (data : SortInterface σ) : SortInterface σ := .reverse data

/-- The type assertion `x.(sorted)`: the slice when the dynamic type of `x`
is `sorted`, a run-time failure otherwise. -/
def assertSorted : SortInterface σ → Option (List (Migration σ))
  | .sorted migs => some migs
  | .reverse _ => none

/-- The call `sort.Sort(sorted(migs))`: ascending by `Version()`, the order
of `Less` (migrate.go 38-42). -/
def sortSort (migs : List (Migration σ)) : List (Migration σ) :=
  migs.insertionSort (fun a b => a.Version ≤ b.Version)

/-- How a call ends: it returns its error value, or it panics. -/
inductive Outcome where
  | returned (err : error)
  | panicked

/-- The function literal of the first transaction of `migrate`
(migrate.go 69-80), with the value left in `curVersion`. -/
def readState (w : World σ) : error × Int × World σ :=
  match ensureVersionTable w with
  | (some e, w1) => (some e, 0, w1)
  | (none, w1) =>
    match Version w1 with
    | ((curVersion, dirty, err), w2) =>
      if dirty then (some .ErrDirty, curVersion, w2) else (err, curVersion, w2)

/-- The loop of `migrate` (migrate.go 95-109); `curVersion` is the value read
by the first transaction and is not updated. -/
def migrateLoop (up : Bool) (curVersion : Int) :
    List (Migration σ) → World σ → error × World σ
  | [], w => (none, w)
  | m :: rest, w =>
    if (up ∧ curVersion < m.Version) ∨ (¬ up ∧ curVersion > m.Version) then
      match run m up w with
      | (some e, w1) => (some e, w1)
      | (none, w1) => migrateLoop up curVersion rest w1
    else migrateLoop up curVersion rest w

/-- The function `migrate(ctx, db, migs, up)` (migrate.go 67-112).  The call
of `tx` on the first function literal is written out, so that the value the
literal assigns to `curVersion` is at hand for the loop. -/
def migrate (migs : List (Migration σ)) (up : Bool) (w : World σ) : Outcome × World σ :=
  match BeginTxx w with
  | (some e, w1) => (.returned (some e), w1)
  | (none, w1) =>
    match readState w1 with
    | (some e, _, w2) => (.returned (some e), Rollback w2)
    | (none, curVersion, w2) =>
      match Commit w2 with
      | (some e, w3) => (.returned (some e), w3)
      | (none, w3) =>
        match (if up then some (sortSort migs)
          else assertSorted (sortReverse (.sorted migs))) with
        | none => (.panicked, w3)
        | some ms =>
          match migrateLoop up curVersion ms w3 with
          | (err, w4) => (.returned err, w4)

/-- The function `Up` (migrate.go 59-61). -/
def Up (migs : List (Migration σ)) (w : World σ) : Outcome × World σ := migrate migs true w

/-- The function `Down` (migrate.go 63-65). -/
def Down (migs : List (Migration σ)) (w : World σ) : Outcome × World σ := migrate migs false w

/-! ## Observations -/

/-- Whether an event is the call of an operation of a migration. -/
def Event.isOp : Event → Bool
  | .up _ => true
  | .down _ => true
  | _ => false

/-- The calls of operations of migrations recorded so far, oldest first. -/
def World.ops (w : World σ) : List Event := w.trace.filter Event.isOp

/-- What a `Version` read returns on a table when the query is executed and
a missing table counts as no row: the first row, or `(NilVersion, false)`. -/
def peek : Option (List Row) → Int × Bool
  | some (r :: _) => r
  | _ => (NilVersion, false)

/-- The pair `(version, dirty)` of the committed content. -/
def World.stored (w : World σ) : Int × Bool := peek w.committed.table

/-- No coming database call fails. -/
def Quiet (script : List error) : Prop := ∀ r ∈ script, r = none

instance (script : List error) : Decidable (Quiet script) :=
  decidable_of_iff (script.all Option.isNone = true) (by
    simp [Quiet, List.all_eq_true, Option.isNone_iff_eq_none])

/-- The lock can be taken: the driver is one of those of the switch and no
other session holds the lock. -/
def LockReady (w : World σ) : Prop :=
  (w.driverName ∈ postgresDrivers ∨ w.driverName ∈ mysqlDrivers ∨ w.driverName = "sqlite3") ∧
    w.lockFree = true

/-- What no call changes, and how the trace and the script move: the trace
grows at its end, the script is used up from its front. -/
structure Ext (w w' : World σ) : Prop where
  driverName : w'.driverName = w.driverName
  missing : w'.missing = w.missing
  lockFree : w'.lockFree = w.lockFree
  trace : w.trace <+: w'.trace
  script : w'.script <:+ w.script

/-- A call inside a transaction that is not an operation of a migration:
it leaves the committed content and the recorded operations as they are. -/
structure Same (w w' : World σ) : Prop where
  ext : Ext w w'
  committed : w'.committed = w.committed
  ops : w'.ops = w.ops

/-- The result of `withLock` from the error of the body and the error of
the release (migrate.go 138-145). -/
def released (err errU : error) : error :=
  match errU with
  | some eu =>
    (match err with
      | none => some eu
      | some e => some (multiError [some e, some eu]))
  | none => err

/-- The event that `run` records when it calls the operation of `m`. -/
def opEvent (m : Migration σ) (up : Bool) : Event :=
  if up then .up m.Version else .down m.Version

/-- The monotonicity requirement of the specification is violated: for up,
the current version is not `NilVersion` and the version of the unit is not
the current version plus one (in `int64`); for down, the version of the unit
is not the current version. -/
def OutOfOrder (up : Bool) (current version : Int) : Prop :=
  (up = true ∧ current ≠ NilVersion ∧ version ≠ wrap64 (current + 1)) ∨
    (up = false ∧ version ≠ current)

instance (up : Bool) (current version : Int) : Decidable (OutOfOrder up current version) := by
  unfold OutOfOrder; infer_instance

/-- The part of the function literal of `run` after the checks
(migrate.go 190-210): the dirty write, the operation, the clean write. -/
def applyUnit (m : Migration σ) (up : Bool) (w : World σ) : error × World σ :=
  match (if up then callUp m (SetVersion m.Version true w).2
    else callDown m (SetVersion m.Version true w).2) with
  | (some e, w3) => (some e, w3)
  | (none, w3) => SetVersion (if up then m.Version else wrap64 (m.Version - 1)) false w3

/-- The call of the operation of `m` in the direction of the run. -/
def callOp (m : Migration σ) (up : Bool) (w : World σ) : error × World σ :=
  if up then callUp m w else callDown m w

/-- The state after the first transaction of `migrate` has been committed. -/
def afterRead (w : World σ) : World σ := (Commit (readState (BeginTxx w).2).2.2).2

/-- The first transaction of `migrate` goes through: it is opened, the
statement that ensures the table and the query of the read are executed,
and it is committed. -/
def FirstRead (w : World σ) : Prop :=
  (BeginTxx w).1 = none ∧ (ensureVersionTable (BeginTxx w).2).1 = none ∧
    (ensureVersionTable (BeginTxx w).2).2.call.1 = none ∧
    (Commit (readState (BeginTxx w).2).2.2).1 = none

/-! ## Example data -/

/-- A schema for the examples: the names of the columns. -/
abbrev Columns := List String

/-- An operation that adds a column. -/
def addColumn (c : String) : Columns → error × Columns := fun s => (none, s ++ [c])

/-- An operation that drops a column. -/
def dropColumn (c : String) : Columns → error × Columns := fun s => (none, s.erase c)

/-- An operation that fails after it has added a column. -/
def brokenColumn (c : String) : Columns → error × Columns :=
  fun s => (some (.errorString "syntax error"), s ++ [c])

/-- The unit of version `v` that adds the column `c` and drops it again. -/
def columnUnit (v : Int) (c : String) : Migration Columns := ⟨addColumn c, dropColumn c, v⟩

/-- The unit of version `v` whose forward operation fails. -/
def brokenUnit (v : Int) (c : String) : Migration Columns := ⟨brokenColumn c, dropColumn c, v⟩

/-- A sqlite3 database with the given table and script. -/
def sqliteWorld (table : Option (List Row)) (script : List error) : World Columns :=
  ⟨"sqlite3", .errorString "no such table: schema_migrations", true, script,
    ⟨table, []⟩, ⟨table, []⟩, []⟩

/-- A postgres database with the given table and script. -/
def postgresWorld (table : Option (List Row)) (script : List error) : World Columns :=
  ⟨"postgres", .pqError "undefined_table" "pq: relation schema_migrations does not exist",
    true, script, ⟨table, []⟩, ⟨table, []⟩, []⟩

/-- A mysql database with the given table and script. -/
def mysqlWorld (table : Option (List Row)) (script : List error) : World Columns :=
  ⟨"mysql", .MySQLError 1146 "Error 1146: Table schema_migrations does not exist",
    true, script, ⟨table, []⟩, ⟨table, []⟩, []⟩

/-- An error of the connection. -/
def connLost : GoError := .errorString "driver: bad connection"

/-- The error of a query that ran longer than the server allows. -/
def queryInterrupted : GoError :=
  .MySQLError 3024 "Error 3024: Query execution was interrupted, maximum statement execution time exceeded"

/-- The error of a statement that waited too long for a row lock. -/
def lockWaitTimeout : GoError :=
  .MySQLError 1205 "Error 1205: Lock wait timeout exceeded; try restarting transaction"

/-! ## The primitive calls -/

section Primitives

@[simp] theorem log_trace (w : World σ) (ev : Event) : (w.log ev).trace = w.trace ++ [ev] := rfl
@[simp] theorem log_script (w : World σ) (ev : Event) : (w.log ev).script = w.script := rfl
@[simp] theorem log_committed (w : World σ) (ev : Event) : (w.log ev).committed = w.committed := rfl
@[simp] theorem log_work (w : World σ) (ev : Event) : (w.log ev).work = w.work := rfl
@[simp] theorem log_driverName (w : World σ) (ev : Event) :
    (w.log ev).driverName = w.driverName := rfl
@[simp] theorem log_missing (w : World σ) (ev : Event) : (w.log ev).missing = w.missing := rfl
@[simp] theorem log_lockFree (w : World σ) (ev : Event) : (w.log ev).lockFree = w.lockFree := rfl

@[simp] theorem call_trace (w : World σ) : w.call.2.trace = w.trace := by
  unfold World.call; split <;> rfl
@[simp] theorem call_script (w : World σ) : w.call.2.script = w.script.tail := by
  unfold World.call; split <;> simp_all
@[simp] theorem call_committed (w : World σ) : w.call.2.committed = w.committed := by
  unfold World.call; split <;> rfl
@[simp] theorem call_work (w : World σ) : w.call.2.work = w.work := by
  unfold World.call; split <;> rfl
@[simp] theorem call_driverName (w : World σ) : w.call.2.driverName = w.driverName := by
  unfold World.call; split <;> rfl
@[simp] theorem call_missing (w : World σ) : w.call.2.missing = w.missing := by
  unfold World.call; split <;> rfl
@[simp] theorem call_lockFree (w : World σ) : w.call.2.lockFree = w.lockFree := by
  unfold World.call; split <;> rfl

theorem call_fst (w : World σ) : w.call.1 = w.script.head?.join := by
  unfold World.call; split <;> simp_all

theorem Quiet.tail {script : List error} (h : Quiet script) : Quiet script.tail :=
  fun r hr => h r (List.mem_of_mem_tail hr)

theorem Quiet.of_suffix {s t : List error} (h : Quiet s) (hs : t <:+ s) : Quiet t :=
  fun r hr => h r (hs.subset hr)

theorem call_fst_of_quiet (w : World σ) (h : Quiet w.script) : w.call.1 = none := by
  rw [call_fst]
  cases hs : w.script with
  | nil => rfl
  | cons r rest =>
    have := h r (by simp [hs])
    simp [this]

theorem Ext.same_world (w : World σ) : Ext w w :=
  ⟨rfl, rfl, rfl, List.prefix_refl _, List.suffix_refl _⟩

theorem Ext.seq {a b c : World σ} (h1 : Ext a b) (h2 : Ext b c) : Ext a c :=
  ⟨h2.driverName.trans h1.driverName, h2.missing.trans h1.missing,
    h2.lockFree.trans h1.lockFree, h1.trace.trans h2.trace, h2.script.trans h1.script⟩

theorem Ext.quiet {a b : World σ} (h : Ext a b) (hq : Quiet a.script) : Quiet b.script :=
  hq.of_suffix h.script

theorem call_ext (w : World σ) : Ext w w.call.2 :=
  ⟨by simp, by simp, by simp, by simp, by simpa using List.tail_suffix _⟩

theorem log_ext (w : World σ) (ev : Event) : Ext w (w.log ev) :=
  ⟨rfl, rfl, rfl, by simp, by simp⟩

theorem Same.unchanged (w : World σ) : Same w w := ⟨Ext.same_world w, rfl, rfl⟩

theorem Same.next {a b c : World σ} (h1 : Same a b) (h2 : Same b c) : Same a c :=
  ⟨h1.ext.seq h2.ext, h2.committed.trans h1.committed, h2.ops.trans h1.ops⟩

@[simp] theorem call_ops (w : World σ) : w.call.2.ops = w.ops := by simp [World.ops]

theorem log_ops (w : World σ) (ev : Event) :
    (w.log ev).ops = w.ops ++ (if ev.isOp then [ev] else []) := by
  simp only [World.ops, log_trace, List.filter_append]
  cases h : ev.isOp <;> simp [List.filter, h]

theorem call_same (w : World σ) : Same w w.call.2 := ⟨call_ext w, by simp, by simp⟩

theorem log_same (w : World σ) (ev : Event) (h : ev.isOp = false) : Same w (w.log ev) :=
  ⟨log_ext w ev, rfl, by simp [log_ops, h]⟩

/-- A change of the working copy only. -/
theorem same_of_work (w : World σ) (s : Store σ) : Same w { w with work := s } :=
  ⟨⟨rfl, rfl, rfl, List.prefix_refl _, List.suffix_refl _⟩, rfl, rfl⟩

theorem execCreate_same (w : World σ) : Same w (execCreate w).2 := by
  unfold execCreate
  split
  · next e w1 h => have := call_same w; rw [h] at this; exact this
  · next w1 h =>
    have hc := call_same w; rw [h] at hc
    split
    · exact hc.next (same_of_work _ _)
    · exact hc

theorem execDelete_same (w : World σ) : Same w (execDelete w).2 := by
  unfold execDelete
  split
  · next e w1 h => have := call_same w; rw [h] at this; exact this
  · next w1 h =>
    have hc := call_same w; rw [h] at hc
    split
    · exact hc
    · exact hc.next (same_of_work _ _)

theorem execInsert_same (v : Int) (d : Bool) (w : World σ) : Same w (execInsert v d w).2 := by
  unfold execInsert
  split
  · next e w1 h => have := call_same w; rw [h] at this; exact this
  · next w1 h =>
    have hc := call_same w; rw [h] at hc
    split
    · exact hc
    · exact hc.next (same_of_work _ _)

theorem queryRow_snd (w : World σ) : (queryRow w).2 = w.call.2 := by
  unfold queryRow
  split
  · next e w1 h => simp [h]
  · next w1 h => split <;> simp [h]

theorem Version_snd (w : World σ) : (Version w).2 = w.call.2 := by
  unfold Version
  split
  · next h => rw [← queryRow_snd, h]
  · next h => split <;> rw [← queryRow_snd, h]
  · next h => rw [← queryRow_snd, h]

theorem Version_same (w : World σ) : Same w (Version w).2 := by
  rw [Version_snd]; exact call_same w

theorem SetVersion_same (v : Int) (d : Bool) (w : World σ) : Same w (SetVersion v d w).2 := by
  unfold SetVersion
  split
  · next e w1 h => have := execDelete_same w; rw [h] at this; exact this
  · next w1 h =>
    have hd := execDelete_same w; rw [h] at hd
    split
    · split
      · next e w2 h2 => have := execInsert_same v d w1; rw [h2] at this; exact hd.next this
      · next w2 h2 => have := execInsert_same v d w1; rw [h2] at this; exact hd.next this
    · exact hd

theorem lock_same (w : World σ) : Same w (lock w).2 := by
  unfold lock
  have hl := log_same w .lock rfl
  simp only []
  split
  · split
    · next e w1 h => have := call_same (w.log .lock); rw [h] at this; exact hl.next this
    · next w1 h =>
      have := call_same (w.log .lock); rw [h] at this
      split <;> exact hl.next this
  · split <;> exact hl

theorem unlock_same (w : World σ) : Same w (unlock w).2 := by
  unfold unlock
  have hl := log_same w .unlock rfl
  simp only []
  split
  · exact hl.next (call_same _)
  · split <;> exact hl

theorem execDelete_ok (w : World σ) (h : (execDelete w).1 = none) :
    (execDelete w).2.work.table = some [] ∧ (execDelete w).2.work.schema = w.work.schema := by
  unfold execDelete at h ⊢
  split at h
  · simp at h
  · next w1 hc =>
    have hw : w1 = w.call.2 := by rw [hc]
    split at h
    · simp at h
    · next rows ht =>
      simp [hw]

theorem execInsert_ok (v : Int) (d : Bool) (w : World σ) (h : (execInsert v d w).1 = none) :
    ∃ rows, w.work.table = some rows ∧
      (execInsert v d w).2.work.table = some (rows ++ [(v, d)]) ∧
      (execInsert v d w).2.work.schema = w.work.schema := by
  unfold execInsert at h ⊢
  split at h
  · simp at h
  · next w1 hc =>
    have hw : w1 = w.call.2 := by rw [hc]
    split at h
    · simp at h
    · next rows ht =>
      refine ⟨rows, by simpa [hw] using ht, ?_⟩
      simp [hw]

theorem SetVersion_ok (v : Int) (d : Bool) (w : World σ) (h : (SetVersion v d w).1 = none) :
    (SetVersion v d w).2.work.table = some (if 0 ≤ v then [(v, d)] else []) ∧
      (SetVersion v d w).2.work.schema = w.work.schema := by
  rcases hd : execDelete w with ⟨_ | e, w1⟩
  · have hdel := execDelete_ok w (by rw [hd])
    rw [hd] at hdel
    by_cases hv : 0 ≤ v
    · rcases hi : execInsert v d w1 with ⟨_ | e2, w2⟩
      · obtain ⟨rows, hr, ht, hs⟩ := execInsert_ok v d w1 (by rw [hi])
        rw [hi] at ht hs
        rw [hdel.1] at hr
        cases hr
        simp only [] at ht hs hdel
        simp [SetVersion, hd, hv, hi, ht, hs, hdel.2]
      · exfalso
        simp [SetVersion, hd, hv, hi] at h
    · simp only [] at hdel
      simp [SetVersion, hd, hv, hdel.1, hdel.2]
  · exfalso
    simp [SetVersion, hd] at h

theorem Version_executed (w : World σ) (rows : List Row) (hc : w.call.1 = none)
    (ht : w.work.table = some rows) :
    (Version w).1 = ((peek (some rows)).1, (peek (some rows)).2, none) := by
  have hq : queryRow w = (match rows with
      | [] => ((some GoError.ErrNoRows, 0, false), w.call.2)
      | r :: _ => ((none, r.1, r.2), w.call.2)) := by
    unfold queryRow
    split
    · next e w1 h => rw [h] at hc; simp at hc
    · next w1 h =>
      have hw : w1 = w.call.2 := by rw [h]
      have ht1 : w1.work.table = some rows := by rw [hw]; simpa using ht
      rw [ht1]
      cases rows <;> simp [hw]
  unfold Version
  rw [hq]
  cases rows <;> simp [peek]

theorem lock_work (w : World σ) : (lock w).2.work = w.work := by
  unfold lock
  simp only []
  split
  · split
    · next e w1 h =>
      have : w1 = (w.log .lock).call.2 := by rw [h]
      simp [this]
    · next w1 h =>
      have : w1 = (w.log .lock).call.2 := by rw [h]
      split <;> simp [this]
  · split <;> simp

theorem unlock_work (w : World σ) : (unlock w).2.work = w.work := by
  unfold unlock
  simp only []
  split
  · simp
  · split <;> simp

theorem lock_quiet_ready (w : World σ) (hq : Quiet w.script) (hr : LockReady w) :
    (lock w).1 = none := by
  unfold lock
  simp only []
  obtain ⟨hd, hf⟩ := hr
  split
  · have hc := call_fst_of_quiet (w.log .lock) (by simpa using hq)
    split
    · next e w1 h => rw [h] at hc; simp at hc
    · next w1 h =>
      have : w1 = (w.log .lock).call.2 := by rw [h]
      simp [this, hf]
  · next hn =>
    have h3 : w.driverName = "sqlite3" := by
      rcases hd with h | h | h
      · exact absurd (Or.inl (by simpa using h)) hn
      · exact absurd (Or.inr (by simpa using h)) hn
      · exact h
    simp [h3]

theorem unlock_quiet_ready (w : World σ) (hq : Quiet w.script) (hr : LockReady w) :
    (unlock w).1 = none := by
  unfold unlock
  simp only []
  obtain ⟨hd, -⟩ := hr
  split
  · exact call_fst_of_quiet (w.log .unlock) (by simpa using hq)
  · next hn =>
    have h3 : w.driverName = "sqlite3" := by
      rcases hd with h | h | h
      · exact absurd (Or.inl (by simpa using h)) hn
      · exact absurd (Or.inr (by simpa using h)) hn
      · exact h
    simp [h3]

theorem Ext.lockReady {a b : World σ} (h : Ext a b) (hr : LockReady a) : LockReady b := by
  unfold LockReady at *
  rw [h.driverName, h.lockFree]
  exact hr

/-! ### Transactions -/

theorem BeginTxx_same (w : World σ) : Same w (BeginTxx w).2 := by
  unfold BeginTxx
  have h1 := (log_same w .begin rfl).next (call_same _)
  split
  · next e w1 h => rw [h] at h1; exact h1
  · next w1 h => rw [h] at h1; exact h1.next (same_of_work _ _)

theorem BeginTxx_work (w : World σ) (h : (BeginTxx w).1 = none) :
    (BeginTxx w).2.work = w.committed := by
  unfold BeginTxx at h ⊢
  split
  · next e w1 hc => simp [hc] at h
  · next w1 hc =>
    have : w1 = (w.log .begin).call.2 := by rw [hc]
    simp [this]

theorem BeginTxx_quiet (w : World σ) (hq : Quiet w.script) : (BeginTxx w).1 = none := by
  unfold BeginTxx
  have hc := call_fst_of_quiet (w.log .begin) (by simpa using hq)
  split
  · next e w1 h => rw [h] at hc; simp at hc
  · rfl

theorem Rollback_same (w : World σ) : Same w (Rollback w) := by
  unfold Rollback
  exact ((log_same w .rollback rfl).next (call_same _)).next (same_of_work _ _)

theorem Commit_ext (w : World σ) : Ext w (Commit w).2 := by
  unfold Commit
  have h1 := ((log_same w .commit rfl).next (call_same _)).ext
  split
  · next e w1 h => rw [h] at h1; exact h1
  · next w1 h =>
    rw [h] at h1
    exact ⟨h1.driverName, h1.missing, h1.lockFree, h1.trace, h1.script⟩

theorem Commit_ops (w : World σ) : (Commit w).2.ops = w.ops := by
  unfold Commit
  have h1 := ((log_same w .commit rfl).next (call_same _)).ops
  split
  · next e w1 h => rw [h] at h1; exact h1
  · next w1 h => rw [h] at h1; exact h1

theorem Commit_err (w : World σ) (h : (Commit w).1 ≠ none) :
    (Commit w).2.committed = w.committed := by
  unfold Commit at h ⊢
  split
  · next e w1 hc =>
    have : w1 = (w.log .commit).call.2 := by rw [hc]
    simp [this]
  · next w1 hc => simp [hc] at h

theorem Commit_ok (w : World σ) (h : (Commit w).1 = none) :
    (Commit w).2.committed = w.work := by
  unfold Commit at h ⊢
  split
  · next e w1 hc => simp [hc] at h
  · next w1 hc =>
    have : w1 = (w.log .commit).call.2 := by rw [hc]
    simp [this]

theorem Commit_quiet (w : World σ) (hq : Quiet w.script) : (Commit w).1 = none := by
  unfold Commit
  have hc := call_fst_of_quiet (w.log .commit) (by simpa using hq)
  split
  · next e w1 h => rw [h] at hc; simp at hc
  · rfl

theorem tx_begin_err (f : World σ → error × World σ) (w : World σ) (e : GoError)
    (h : (BeginTxx w).1 = some e) : tx f w = (some e, (BeginTxx w).2) := by
  unfold tx
  rcases hb : BeginTxx w with ⟨_ | e1, w1⟩
  · rw [hb] at h; simp at h
  · rw [hb] at h; simp at h; simp [h]

theorem tx_body_err (f : World σ → error × World σ) (w : World σ) (e : GoError)
    (h : (BeginTxx w).1 = none) (hf : (f (BeginTxx w).2).1 = some e) :
    tx f w = (some e, Rollback (f (BeginTxx w).2).2) := by
  unfold tx
  rcases hb : BeginTxx w with ⟨_ | e1, w1⟩
  · rw [hb] at hf
    rcases hb2 : f w1 with ⟨_ | e2, w2⟩
    · rw [hb2] at hf; simp at hf
    · rw [hb2] at hf; simp at hf; simp [hb2, hf]
  · rw [hb] at h; simp at h

theorem tx_body_ok (f : World σ → error × World σ) (w : World σ)
    (h : (BeginTxx w).1 = none) (hf : (f (BeginTxx w).2).1 = none) :
    tx f w = Commit (f (BeginTxx w).2).2 := by
  unfold tx
  rcases hb : BeginTxx w with ⟨_ | e1, w1⟩
  · rw [hb] at hf
    rcases hb2 : f w1 with ⟨_ | e2, w2⟩
    · simp [hb2]
    · rw [hb2] at hf; simp at hf
  · rw [hb] at h; simp at h

/-! ### The lock -/

theorem withLock_lock_err (f : World σ → error × World σ) (w : World σ) (e : GoError)
    (h : (lock w).1 = some e) : withLock f w = (some e, (lock w).2) := by
  unfold withLock
  rcases hb : lock w with ⟨_ | e1, w1⟩
  · rw [hb] at h; simp at h
  · rw [hb] at h; simp at h; simp [h]

theorem withLock_locked (f : World σ → error × World σ) (w : World σ)
    (h : (lock w).1 = none) :
    withLock f w = (released (f (lock w).2).1 (unlock (f (lock w).2).2).1,
      (unlock (f (lock w).2).2).2) := by
  unfold withLock
  rcases hb : lock w with ⟨_ | e1, w1⟩
  · simp only []
    rcases hu : unlock (f w1).2 with ⟨_ | eu, w3⟩
    · simp [released]
    · rcases hf : (f w1).1 with _ | e <;> simp [released]
  · rw [hb] at h; simp at h

theorem released_eq_none {err errU : error} :
    released err errU = none ↔ err = none ∧ errU = none := by
  cases err <;> cases errU <;> simp [released]

theorem released_of_err {err errU : error} (h : err ≠ none) : released err errU ≠ none := by
  cases err <;> cases errU <;> simp_all [released]

/-! ### One step -/

theorem callOp_ext (m : Migration σ) (up : Bool) (w : World σ) : Ext w (callOp m up w).2 := by
  unfold callOp
  cases up
  · exact ⟨rfl, rfl, rfl, by simp [callDown], by simp [callDown]⟩
  · exact ⟨rfl, rfl, rfl, by simp [callUp], by simp [callUp]⟩

theorem callOp_committed (m : Migration σ) (up : Bool) (w : World σ) :
    (callOp m up w).2.committed = w.committed := by
  unfold callOp; cases up <;> rfl

theorem callOp_table (m : Migration σ) (up : Bool) (w : World σ) :
    (callOp m up w).2.work.table = w.work.table := by
  unfold callOp; cases up <;> rfl

theorem callOp_ops (m : Migration σ) (up : Bool) (w : World σ) :
    (callOp m up w).2.ops = w.ops ++ [opEvent m up] := by
  unfold callOp opEvent
  cases up
  · simp [callDown, World.ops, List.filter_append, List.filter, Event.isOp]
  · simp [callUp, World.ops, List.filter_append, List.filter, Event.isOp]

theorem applyUnit_eq (m : Migration σ) (up : Bool) (w : World σ) :
    applyUnit m up w =
      (match (callOp m up (SetVersion m.Version true w).2).1 with
        | some e => (some e, (callOp m up (SetVersion m.Version true w).2).2)
        | none => SetVersion (if up then m.Version else wrap64 (m.Version - 1)) false
            (callOp m up (SetVersion m.Version true w).2).2) := by
  unfold applyUnit callOp
  cases up
  · simp only [Bool.false_eq_true, if_false]
    rcases h : callDown m (SetVersion m.Version true w).2 with ⟨_ | e, w3⟩ <;> simp
  · simp only [if_true]
    rcases h : callUp m (SetVersion m.Version true w).2 with ⟨_ | e, w3⟩ <;> simp

theorem applyUnit_ext (m : Migration σ) (up : Bool) (w : World σ) :
    Ext w (applyUnit m up w).2 := by
  rw [applyUnit_eq]
  have h1 := (SetVersion_same m.Version true w).ext.seq
    (callOp_ext m up (SetVersion m.Version true w).2)
  split
  · exact h1
  · exact h1.seq (SetVersion_same _ _ _).ext

theorem applyUnit_committed (m : Migration σ) (up : Bool) (w : World σ) :
    (applyUnit m up w).2.committed = w.committed := by
  rw [applyUnit_eq]
  have h1 : (callOp m up (SetVersion m.Version true w).2).2.committed = w.committed := by
    rw [callOp_committed, (SetVersion_same _ _ _).committed]
  split
  · exact h1
  · rw [(SetVersion_same _ _ _).committed, h1]

theorem applyUnit_ops (m : Migration σ) (up : Bool) (w : World σ) :
    (applyUnit m up w).2.ops = w.ops ++ [opEvent m up] := by
  rw [applyUnit_eq]
  have h1 : (callOp m up (SetVersion m.Version true w).2).2.ops = w.ops ++ [opEvent m up] := by
    rw [callOp_ops, (SetVersion_same _ _ _).ops]
  split
  · exact h1
  · rw [(SetVersion_same _ _ _).ops, h1]

theorem applyUnit_ok (m : Migration σ) (up : Bool) (w : World σ)
    (h : (applyUnit m up w).1 = none) :
    (applyUnit m up w).2.work.table =
      some (if 0 ≤ (if up then m.Version else wrap64 (m.Version - 1))
        then [((if up then m.Version else wrap64 (m.Version - 1)), false)] else []) := by
  rw [applyUnit_eq] at h ⊢
  split at h
  · simp at h
  · exact (SetVersion_ok _ _ _ h).1

theorem applyUnit_err_of_op (m : Migration σ) (up : Bool) (w : World σ)
    (h : (callOp m up (SetVersion m.Version true w).2).1 ≠ none) :
    (applyUnit m up w).1 ≠ none := by
  rw [applyUnit_eq]
  split
  · simp
  · next hn => exact absurd hn h

theorem runBody_dirty (m : Migration σ) (up : Bool) (w : World σ)
    (h : (Version w).1.2.1 = true) : runBody m up w = (some .ErrDirty, (Version w).2) := by
  unfold runBody
  rcases hv : Version w with ⟨⟨c, d, e⟩, w1⟩
  rw [hv] at h
  simp only [] at h
  simp [h]

theorem runBody_outOfOrder (m : Migration σ) (up : Bool) (w : World σ)
    (h : (Version w).1.2.1 = false) (ho : OutOfOrder up (Version w).1.1 m.Version) :
    runBody m up w = (some .ErrOutOfOrder, (Version w).2) := by
  unfold runBody
  rcases hv : Version w with ⟨⟨c, d, e⟩, w1⟩
  rw [hv] at h ho
  simp only [] at h ho
  unfold OutOfOrder at ho
  rcases ho with ⟨hu, h1, h2⟩ | ⟨hu, h1⟩
  · simp [h, hu, h1, h2]
  · simp [h, hu, h1]

theorem runBody_apply (m : Migration σ) (up : Bool) (w : World σ)
    (h : (Version w).1.2.1 = false) (ho : ¬ OutOfOrder up (Version w).1.1 m.Version) :
    runBody m up w = applyUnit m up (Version w).2 := by
  unfold runBody applyUnit
  rcases hv : Version w with ⟨⟨c, d, e⟩, w1⟩
  rw [hv] at h ho
  simp only [] at h ho
  unfold OutOfOrder at ho
  simp only [not_or, not_and] at ho
  cases up
  · have h1 : m.Version = c := by
      by_contra hc
      exact ho.2 rfl hc
    simp [h, h1]
  · have h1 : ¬ (c ≠ NilVersion ∧ m.Version ≠ wrap64 (c + 1)) := by
      rintro ⟨ha, hb⟩
      exact ho.1 rfl ha hb
    simp only [h]
    simp [h1]

theorem runBody_cases (m : Migration σ) (up : Bool) (w : World σ) :
    (∃ e, runBody m up w = (some e, (Version w).2)) ∨
      runBody m up w = applyUnit m up (Version w).2 := by
  by_cases hd : (Version w).1.2.1 = true
  · exact Or.inl ⟨_, runBody_dirty m up w hd⟩
  · have hd2 : (Version w).1.2.1 = false := by simpa using hd
    by_cases ho : OutOfOrder up (Version w).1.1 m.Version
    · exact Or.inl ⟨_, runBody_outOfOrder m up w hd2 ho⟩
    · exact Or.inr (runBody_apply m up w hd2 ho)

theorem runBody_ext (m : Migration σ) (up : Bool) (w : World σ) :
    Ext w (runBody m up w).2 := by
  rcases runBody_cases m up w with ⟨e, h⟩ | h
  · rw [h]; exact (Version_same w).ext
  · rw [h]; exact (Version_same w).ext.seq (applyUnit_ext _ _ _)

theorem runBody_committed (m : Migration σ) (up : Bool) (w : World σ) :
    (runBody m up w).2.committed = w.committed := by
  rcases runBody_cases m up w with ⟨e, h⟩ | h
  · rw [h]; exact (Version_same w).committed
  · rw [h, applyUnit_committed]; exact (Version_same w).committed

theorem runBody_ops (m : Migration σ) (up : Bool) (w : World σ) :
    (runBody m up w).2.ops = w.ops ∨ (runBody m up w).2.ops = w.ops ++ [opEvent m up] := by
  rcases runBody_cases m up w with ⟨e, h⟩ | h
  · left; rw [h]; exact (Version_same w).ops
  · right; rw [h, applyUnit_ops, (Version_same w).ops]

theorem runBody_ok (m : Migration σ) (up : Bool) (w : World σ)
    (h : (runBody m up w).1 = none) :
    (runBody m up w).2.ops = w.ops ++ [opEvent m up] ∧
      (runBody m up w).2.work.table =
        some (if 0 ≤ (if up then m.Version else wrap64 (m.Version - 1))
          then [((if up then m.Version else wrap64 (m.Version - 1)), false)] else []) := by
  rcases runBody_cases m up w with ⟨e, he⟩ | he
  · rw [he] at h; simp at h
  · rw [he] at h ⊢
    exact ⟨by rw [applyUnit_ops, (Version_same w).ops], applyUnit_ok m up _ h⟩

/-! ### The combinators on any body -/

theorem withLock_ext (f : World σ → error × World σ) (hf : ∀ t, Ext t (f t).2)
    (w : World σ) : Ext w (withLock f w).2 := by
  rcases hl : (lock w).1 with _ | e
  · rw [withLock_locked f w hl]
    exact ((lock_same w).ext.seq (hf _)).seq (unlock_same _).ext
  · rw [withLock_lock_err f w e hl]
    exact (lock_same w).ext

theorem withLock_committed (f : World σ → error × World σ)
    (hf : ∀ t, (f t).2.committed = t.committed) (w : World σ) :
    (withLock f w).2.committed = w.committed := by
  rcases hl : (lock w).1 with _ | e
  · rw [withLock_locked f w hl]
    simp only []
    rw [(unlock_same _).committed, hf, (lock_same w).committed]
  · rw [withLock_lock_err f w e hl]
    exact (lock_same w).committed

theorem withLock_ok (f : World σ → error × World σ) (w : World σ)
    (h : (withLock f w).1 = none) :
    (lock w).1 = none ∧ (f (lock w).2).1 = none ∧
      (withLock f w).2.ops = (f (lock w).2).2.ops ∧
      (withLock f w).2.work = (f (lock w).2).2.work := by
  rcases hl : (lock w).1 with _ | e
  · rw [withLock_locked f w hl] at h ⊢
    simp only [] at h ⊢
    rw [released_eq_none] at h
    exact ⟨trivial, h.1, (unlock_same _).ops, unlock_work _⟩
  · rw [withLock_lock_err f w e hl] at h
    simp at h

theorem withLock_ops (f : World σ → error × World σ) (w : World σ) :
    (withLock f w).2.ops = w.ops ∨ (withLock f w).2.ops = (f (lock w).2).2.ops := by
  rcases hl : (lock w).1 with _ | e
  · right
    rw [withLock_locked f w hl]
    exact (unlock_same _).ops
  · left
    rw [withLock_lock_err f w e hl]
    exact (lock_same w).ops

theorem withLock_err (f : World σ → error × World σ) (hf : ∀ t, (f t).1 ≠ none)
    (w : World σ) : (withLock f w).1 ≠ none := by
  rcases hl : (lock w).1 with _ | e
  · rw [withLock_locked f w hl]
    exact released_of_err (hf _)
  · rw [withLock_lock_err f w e hl]
    simp

theorem tx_ext (f : World σ → error × World σ) (hf : ∀ t, Ext t (f t).2) (w : World σ) :
    Ext w (tx f w).2 := by
  rcases hb : (BeginTxx w).1 with _ | e
  · rcases hb2 : (f (BeginTxx w).2).1 with _ | e
    · rw [tx_body_ok f w hb hb2]
      exact ((BeginTxx_same w).ext.seq (hf _)).seq (Commit_ext _)
    · rw [tx_body_err f w e hb hb2]
      exact ((BeginTxx_same w).ext.seq (hf _)).seq (Rollback_same _).ext
  · rw [tx_begin_err f w e hb]
    exact (BeginTxx_same w).ext

theorem tx_err (f : World σ → error × World σ) (hf : ∀ t, (f t).2.committed = t.committed)
    (w : World σ) (h : (tx f w).1 ≠ none) : (tx f w).2.committed = w.committed := by
  rcases hb : (BeginTxx w).1 with _ | e
  · rcases hb2 : (f (BeginTxx w).2).1 with _ | e
    · rw [tx_body_ok f w hb hb2] at h ⊢
      rw [Commit_err _ h, hf, (BeginTxx_same w).committed]
    · rw [tx_body_err f w e hb hb2]
      simp only []
      rw [(Rollback_same _).committed, hf, (BeginTxx_same w).committed]
  · rw [tx_begin_err f w e hb]
    exact (BeginTxx_same w).committed

theorem tx_ok (f : World σ → error × World σ) (w : World σ) (h : (tx f w).1 = none) :
    (BeginTxx w).1 = none ∧ (f (BeginTxx w).2).1 = none ∧
      (tx f w).2.committed = (f (BeginTxx w).2).2.work ∧
      (tx f w).2.ops = (f (BeginTxx w).2).2.ops := by
  rcases hb : (BeginTxx w).1 with _ | e
  · rcases hb2 : (f (BeginTxx w).2).1 with _ | e
    · rw [tx_body_ok f w hb hb2] at h ⊢
      exact ⟨rfl, rfl, Commit_ok _ h, Commit_ops _⟩
    · rw [tx_body_err f w e hb hb2] at h
      simp at h
  · rw [tx_begin_err f w e hb] at h
    simp at h

theorem tx_ops (f : World σ → error × World σ) (w : World σ) :
    (tx f w).2.ops = w.ops ∨ (tx f w).2.ops = (f (BeginTxx w).2).2.ops := by
  rcases hb : (BeginTxx w).1 with _ | e
  · right
    rcases hb2 : (f (BeginTxx w).2).1 with _ | e
    · rw [tx_body_ok f w hb hb2]
      exact Commit_ops _
    · rw [tx_body_err f w e hb hb2]
      exact (Rollback_same _).ops
  · left
    rw [tx_begin_err f w e hb]
    exact (BeginTxx_same w).ops

theorem tx_err_of_body (f : World σ → error × World σ) (hf : ∀ t, (f t).1 ≠ none)
    (w : World σ) : (tx f w).1 ≠ none := by
  rcases hb : (BeginTxx w).1 with _ | e
  · rcases hb2 : (f (BeginTxx w).2).1 with _ | e
    · exact absurd hb2 (hf _)
    · rw [tx_body_err f w e hb hb2]
      simp
  · rw [tx_begin_err f w e hb]
    simp

/-! ### The step `run` -/

theorem run_ext (m : Migration σ) (up : Bool) (w : World σ) : Ext w (run m up w).2 :=
  tx_ext _ (fun t => withLock_ext _ (runBody_ext m up) t) w

theorem run_err (m : Migration σ) (up : Bool) (w : World σ) (h : (run m up w).1 ≠ none) :
    (run m up w).2.committed = w.committed :=
  tx_err _ (fun t => withLock_committed _ (runBody_committed m up) t) w h

theorem run_ok (m : Migration σ) (up : Bool) (w : World σ) (h : (run m up w).1 = none) :
    (run m up w).2.ops = w.ops ++ [opEvent m up] ∧
      (run m up w).2.committed.table =
        some (if 0 ≤ (if up then m.Version else wrap64 (m.Version - 1))
          then [((if up then m.Version else wrap64 (m.Version - 1)), false)] else []) := by
  obtain ⟨-, h2, h3, h4⟩ := tx_ok _ w h
  obtain ⟨-, h6, h7, h8⟩ := withLock_ok _ _ h2
  obtain ⟨h9, h10⟩ := runBody_ok m up _ h6
  unfold run
  refine ⟨?_, ?_⟩
  · rw [h4, h7, h9, (lock_same _).ops, (BeginTxx_same w).ops]
  · rw [h3, h8, h10]

theorem run_ops (m : Migration σ) (up : Bool) (w : World σ) :
    (run m up w).2.ops = w.ops ∨ (run m up w).2.ops = w.ops ++ [opEvent m up] := by
  unfold run
  rcases tx_ops (withLock (runBody m up)) w with h | h
  · exact Or.inl h
  · rw [h]
    rcases withLock_ops (runBody m up) (BeginTxx w).2 with h2 | h2
    · left; rw [h2, (BeginTxx_same w).ops]
    · rw [h2]
      rcases runBody_ops m up (lock (BeginTxx w).2).2 with h3 | h3
      · left; rw [h3, (lock_same _).ops, (BeginTxx_same w).ops]
      · right; rw [h3, (lock_same _).ops, (BeginTxx_same w).ops]

theorem lock_trace (w : World σ) : (lock w).2.trace = w.trace ++ [.lock] := by
  unfold lock
  simp only []
  split
  · split
    · next e w1 h =>
      have : w1 = (w.log .lock).call.2 := by rw [h]
      simp [this]
    · next w1 h =>
      have : w1 = (w.log .lock).call.2 := by rw [h]
      split <;> simp [this]
  · split <;> simp

theorem unlock_trace (w : World σ) : (unlock w).2.trace = w.trace ++ [.unlock] := by
  unfold unlock
  simp only []
  split
  · simp
  · split <;> simp

theorem compactErrs_eq (errs : List error) : compactErrs errs = errs.filterMap id := by
  induction errs with
  | nil => rfl
  | cons e rest ih => cases e <;> simp [compactErrs, ih]

theorem tx_ops_begun (f : World σ → error × World σ) (w : World σ)
    (h : (BeginTxx w).1 = none) : (tx f w).2.ops = (f (BeginTxx w).2).2.ops := by
  rcases hb2 : (f (BeginTxx w).2).1 with _ | e
  · rw [tx_body_ok f w h hb2]
    exact Commit_ops _
  · rw [tx_body_err f w e h hb2]
    exact (Rollback_same _).ops

theorem withLock_ops_locked (f : World σ → error × World σ) (w : World σ)
    (h : (lock w).1 = none) : (withLock f w).2.ops = (f (lock w).2).2.ops := by
  rw [withLock_locked f w h]
  exact (unlock_same _).ops

theorem readState_same (w : World σ) : Same w (readState w).2.2 := by
  unfold readState ensureVersionTable
  rcases hc : execCreate w with ⟨_ | e, w1⟩
  · have h1 := execCreate_same w
    rw [hc] at h1
    simp only []
    rcases hv : Version w1 with ⟨⟨c, d, e⟩, w2⟩
    have h2 := Version_same w1
    rw [hv] at h2
    simp only []
    split <;> exact h1.next h2
  · have h1 := execCreate_same w
    rw [hc] at h1
    exact h1

/-! ### The first transaction -/

theorem execCreate_ok (w : World σ) (h : (execCreate w).1 = none) :
    (execCreate w).2.work.table = some (w.work.table.getD []) ∧
      (execCreate w).2.work.schema = w.work.schema := by
  unfold execCreate at h ⊢
  rcases hc : w.call with ⟨_ | e, w1⟩
  · have hw : w1 = w.call.2 := by rw [hc]
    simp only []
    rcases ht : w1.work.table with _ | rows
    · have ht2 : w.work.table = none := by simpa [hw] using ht
      simp [ht2, hw]
    · have ht2 : w.work.table = some rows := by simpa [hw] using ht
      simp [ht2, hw, ht]
  · rw [hc] at h
    simp at h

theorem Version_work (w : World σ) : (Version w).2.work = w.work := by
  rw [Version_snd]; simp

theorem readState_of_read (w : World σ) (he : (ensureVersionTable w).1 = none)
    (hs : (ensureVersionTable w).2.call.1 = none) :
    (readState w).1 = (if (peek w.work.table).2 then some .ErrDirty else none) ∧
      (readState w).2.1 = (peek w.work.table).1 ∧
      (readState w).2.2.work.table = some (w.work.table.getD []) ∧
      (readState w).2.2.work.schema = w.work.schema := by
  have hc := execCreate_ok w he
  have hv := Version_executed (ensureVersionTable w).2 _ hs hc.1
  have hw := Version_work (ensureVersionTable w).2
  have hp : peek (some (w.work.table.getD [])) = peek w.work.table := by
    rcases w.work.table with _ | rows <;> rfl
  rw [hp] at hv
  unfold readState
  rcases hen : ensureVersionTable w with ⟨_ | e, w1⟩
  · have hen2 : execCreate w = (none, w1) := hen
    rw [hen] at hv hw
    rw [hen2] at hc
    simp only [] at hv hw hc ⊢
    rcases hvv : Version w1 with ⟨⟨c, d, e⟩, w2⟩
    rw [hvv] at hv hw
    simp only [] at hv hw ⊢
    injection hv with h1 h2
    injection h2 with h2 h3
    subst h1 h2 h3
    have hc1 : w1.work.table = some (w.work.table.getD []) := hc.1
    have hc2 : w1.work.schema = w.work.schema := hc.2
    cases hd : (peek w.work.table).2 <;> simp [hw, hc1, hc2]
  · rw [hen] at he
    simp at he

theorem afterRead_facts (w : World σ) (h : FirstRead w) :
    Ext w (afterRead w) ∧ (afterRead w).ops = w.ops ∧
      (afterRead w).committed.table = some (w.committed.table.getD []) ∧
      (afterRead w).committed.schema = w.committed.schema ∧
      (afterRead w).stored = w.stored := by
  obtain ⟨hb, he, hs, hc⟩ := h
  have hr := readState_of_read (BeginTxx w).2 he hs
  rw [BeginTxx_work w hb] at hr
  have hsame := (BeginTxx_same w).next (readState_same (BeginTxx w).2)
  have hcom := Commit_ok _ hc
  have ht : (afterRead w).committed.table = some (w.committed.table.getD []) := by
    unfold afterRead; rw [hcom, hr.2.2.1]
  refine ⟨hsame.ext.seq (Commit_ext _), ?_, ht, ?_, ?_⟩
  · unfold afterRead; rw [Commit_ops, hsame.ops]
  · unfold afterRead; rw [hcom, hr.2.2.2]
  · unfold World.stored
    rw [ht]
    rcases w.committed.table with _ | rows <;> rfl

theorem migrate_of_read (migs : List (Migration σ)) (up : Bool) (w : World σ)
    (h : FirstRead w) (hclean : w.stored.2 = false) :
    migrate migs up w =
      (match (if up then some (sortSort migs)
          else assertSorted (sortReverse (.sorted migs))) with
        | none => (.panicked, afterRead w)
        | some ms => (.returned (migrateLoop up w.stored.1 ms (afterRead w)).1,
            (migrateLoop up w.stored.1 ms (afterRead w)).2)) := by
  obtain ⟨hb, he, hs, hc⟩ := h
  have hr := readState_of_read (BeginTxx w).2 he hs
  rw [BeginTxx_work w hb] at hr
  have hst : peek w.committed.table = w.stored := rfl
  rw [hst, hclean] at hr
  unfold migrate afterRead
  rcases hbb : BeginTxx w with ⟨_ | e, w1⟩
  · rw [hbb] at hr hc
    simp only [] at hr hc ⊢
    rcases hrr : readState w1 with ⟨_ | e, c, w2⟩
    · rw [hrr] at hr hc
      simp only [] at hr hc ⊢
      rcases hcc : Commit w2 with ⟨_ | e, w3⟩
      · simp only []
        rw [← hr.2.1]
      · rw [hcc] at hc
        simp at hc
    · rw [hrr] at hr
      simp at hr
  · rw [hbb] at hb
    simp at hb

theorem firstRead_of_quiet (w : World σ) (hq : Quiet w.script) : FirstRead w := by
  have hb := BeginTxx_quiet w hq
  have hq1 := (BeginTxx_same w).ext.quiet hq
  have he : (ensureVersionTable (BeginTxx w).2).1 = none := by
    unfold ensureVersionTable execCreate
    have := call_fst_of_quiet _ hq1
    rcases hc : (BeginTxx w).2.call with ⟨_ | e, w1⟩
    · simp only []
      split <;> rfl
    · rw [hc] at this
      simp at this
  have hq2 := (execCreate_same (BeginTxx w).2).ext.quiet hq1
  have hq3 := (readState_same (BeginTxx w).2).ext.quiet hq1
  exact ⟨hb, he, call_fst_of_quiet _ hq2, Commit_quiet _ hq3⟩

/-! ### The loop -/

theorem migrateLoop_cons_run (c : Int) (m : Migration σ) (rest : List (Migration σ))
    (w : World σ) (h : c < m.Version) :
    migrateLoop true c (m :: rest) w =
      (match run m true w with
        | (some e, w1) => (some e, w1)
        | (none, w1) => migrateLoop true c rest w1) := by
  simp [migrateLoop, h]

theorem migrateLoop_cons_skip (c : Int) (m : Migration σ) (rest : List (Migration σ))
    (w : World σ) (h : ¬ c < m.Version) :
    migrateLoop true c (m :: rest) w = migrateLoop true c rest w := by
  simp [migrateLoop, h]

theorem migrateLoop_cons_ok (c : Int) (m : Migration σ) (rest : List (Migration σ))
    (w : World σ) (h : c < m.Version) (hr : (run m true w).1 = none) :
    migrateLoop true c (m :: rest) w = migrateLoop true c rest (run m true w).2 := by
  rw [migrateLoop_cons_run c m rest w h]
  rcases hrr : run m true w with ⟨_ | e, w1⟩
  · rfl
  · rw [hrr] at hr; simp at hr

theorem migrateLoop_cons_err (c : Int) (m : Migration σ) (rest : List (Migration σ))
    (w : World σ) (h : c < m.Version) (e : GoError) (hr : (run m true w).1 = some e) :
    migrateLoop true c (m :: rest) w = (some e, (run m true w).2) := by
  rw [migrateLoop_cons_run c m rest w h]
  rcases hrr : run m true w with ⟨_ | e1, w1⟩
  · rw [hrr] at hr; simp at hr
  · rw [hrr] at hr; simp at hr; simp [hr]

theorem migrateLoop_ext (c : Int) (ms : List (Migration σ)) (w : World σ) :
    Ext w (migrateLoop true c ms w).2 := by
  induction ms generalizing w with
  | nil => exact Ext.same_world w
  | cons m rest ih =>
    by_cases h : c < m.Version
    · rcases hr : (run m true w).1 with _ | e
      · rw [migrateLoop_cons_ok c m rest w h hr]
        exact (run_ext m true w).seq (ih _)
      · rw [migrateLoop_cons_err c m rest w h e hr]
        exact run_ext m true w
    · rw [migrateLoop_cons_skip c m rest w h]
      exact ih w

theorem migrateLoop_skip_all (c : Int) (ms : List (Migration σ)) (w : World σ)
    (h : ∀ m ∈ ms, m.Version ≤ c) : migrateLoop true c ms w = (none, w) := by
  induction ms with
  | nil => rfl
  | cons m rest ih =>
    rw [migrateLoop_cons_skip c m rest w (by have := h m (by simp); omega)]
    exact ih (fun x hx => h x (by simp [hx]))

theorem migrateLoop_filter (c : Int) (ms : List (Migration σ)) (w : World σ) :
    migrateLoop true c ms w =
      migrateLoop true c (ms.filter (fun m => decide (c < m.Version))) w := by
  induction ms generalizing w with
  | nil => rfl
  | cons m rest ih =>
    by_cases h : c < m.Version
    · rw [List.filter_cons_of_pos (by simpa using h)]
      rw [migrateLoop_cons_run c m rest w h, migrateLoop_cons_run c m _ w h]
      rcases run m true w with ⟨_ | e, w1⟩
      · exact ih w1
      · rfl
    · rw [List.filter_cons_of_neg (by simpa using h), migrateLoop_cons_skip c m rest w h]
      exact ih w

theorem run_ok_stored (m : Migration σ) (w : World σ) (h : (run m true w).1 = none) :
    (run m true w).2.stored = (if 0 ≤ m.Version then (m.Version, false) else (NilVersion, false)) ∧
      (run m true w).2.committed.table ≠ none := by
  have ht := (run_ok m true w h).2
  simp only [if_true] at ht
  unfold World.stored
  rw [ht]
  by_cases hv : 0 ≤ m.Version <;> simp [hv, peek]

theorem migrateLoop_bound (c : Int) (ms : List (Migration σ)) :
    ∀ (w : World σ) (b : Int),
      ms.Pairwise (fun x y => x.Version ≤ y.Version) →
      (∀ m ∈ ms, c < m.Version → b ≤ m.Version) →
      b ≤ w.stored.1 → w.stored.2 = false → w.committed.table ≠ none →
      (migrateLoop true c ms w).1 = none →
      b ≤ (migrateLoop true c ms w).2.stored.1 ∧
        (migrateLoop true c ms w).2.stored.2 = false ∧
        (migrateLoop true c ms w).2.committed.table ≠ none ∧
        ∀ m ∈ ms, c < m.Version → m.Version ≤ (migrateLoop true c ms w).2.stored.1 := by
  induction ms with
  | nil =>
    intro w b _ _ hb hc ht _
    exact ⟨hb, hc, ht, by simp⟩
  | cons m rest ih =>
    intro w b hsorted hlow hb hc ht hres
    rw [List.pairwise_cons] at hsorted
    by_cases h : c < m.Version
    · rcases hr : (run m true w).1 with _ | e
      · rw [migrateLoop_cons_ok c m rest w h hr] at hres ⊢
        obtain ⟨hst, hex⟩ := run_ok_stored m w hr
        have hv : m.Version ≤ (run m true w).2.stored.1 := by
          rw [hst]; unfold NilVersion; split
          · simp
          · simp; omega
        have hcl : (run m true w).2.stored.2 = false := by
          rw [hst]; split <;> rfl
        obtain ⟨h1, h2, h3, h4⟩ := ih (run m true w).2 m.Version hsorted.2
          (fun x hx _ => hsorted.1 x hx) hv hcl hex hres
        refine ⟨le_trans (hlow m (by simp) h) h1, h2, h3, ?_⟩
        intro x hx hcx
        rcases List.mem_cons.1 hx with rfl | hx
        · exact h1
        · exact h4 x hx hcx
      · rw [migrateLoop_cons_err c m rest w h e hr] at hres
        simp at hres
    · rw [migrateLoop_cons_skip c m rest w h] at hres ⊢
      obtain ⟨h1, h2, h3, h4⟩ := ih w b hsorted.2
        (fun x hx hcx => hlow x (by simp [hx]) hcx) hb hc ht hres
      refine ⟨h1, h2, h3, ?_⟩
      intro x hx hcx
      rcases List.mem_cons.1 hx with rfl | hx
      · exact absurd hcx h
      · exact h4 x hx hcx

theorem sortSort_perm (migs : List (Migration σ)) : (sortSort migs).Perm migs :=
  List.perm_insertionSort _ migs

theorem sortSort_sorted (migs : List (Migration σ)) :
    (sortSort migs).Pairwise (fun x y => x.Version ≤ y.Version) := by
  have : IsTotal (Migration σ) (fun x y => x.Version ≤ y.Version) :=
    ⟨fun x y => le_total x.Version y.Version⟩
  have : IsTrans (Migration σ) (fun x y => x.Version ≤ y.Version) :=
    ⟨fun x y z h1 h2 => le_trans h1 h2⟩
  exact List.sorted_insertionSort (fun x y => x.Version ≤ y.Version) migs

theorem migrate_dirty_of_read (migs : List (Migration σ)) (up : Bool) (w : World σ)
    (h : FirstRead w) (hd : w.stored.2 = true) :
    (migrate migs up w).1 = .returned (some .ErrDirty) := by
  obtain ⟨hb, he, hs, -⟩ := h
  have hr := (readState_of_read (BeginTxx w).2 he hs).1
  rw [BeginTxx_work w hb] at hr
  have hst : peek w.committed.table = w.stored := rfl
  rw [hst, hd] at hr
  unfold migrate
  rcases hbb : BeginTxx w with ⟨_ | e, w1⟩
  · rw [hbb] at hr
    simp only [] at hr ⊢
    rcases hrr : readState w1 with ⟨_ | e, c, w2⟩
    · rw [hrr] at hr
      simp at hr
    · rw [hrr] at hr
      simp at hr
      simp [hr]
  · rw [hbb] at hb
    simp at hb

theorem Up_of_read (migs : List (Migration σ)) (w : World σ)
    (h : FirstRead w) (hclean : w.stored.2 = false) :
    Up migs w = (.returned (migrateLoop true w.stored.1 (sortSort migs) (afterRead w)).1,
      (migrateLoop true w.stored.1 (sortSort migs) (afterRead w)).2) := by
  unfold Up
  rw [migrate_of_read migs true w h hclean]
  simp

theorem store_ext (a b : Store σ) (h1 : a.table = b.table) (h2 : a.schema = b.schema) :
    a = b := by
  cases a; cases b; simp_all

theorem migrateLoop_split (c : Int) (ms : List (Migration σ)) :
    ∀ (w : World σ), (∀ m ∈ ms, c < m.Version) →
      ∃ done rest, ms = done ++ rest ∧ (migrateLoop true c done w).1 = none ∧
        (match rest with
          | [] => migrateLoop true c ms w = (none, (migrateLoop true c done w).2)
          | u :: _ => ∃ e, (run u true (migrateLoop true c done w).2).1 = some e ∧
              migrateLoop true c ms w =
                (some e, (run u true (migrateLoop true c done w).2).2)) := by
  induction ms with
  | nil =>
    intro w _
    exact ⟨[], [], rfl, rfl, rfl⟩
  | cons m ms ih =>
    intro w hall
    have hm : c < m.Version := hall m (by simp)
    rcases hr : (run m true w).1 with _ | e
    · obtain ⟨done, rest, h1, h2, h3⟩ := ih (run m true w).2 (fun x hx => hall x (by simp [hx]))
      refine ⟨m :: done, rest, by simp [h1], ?_, ?_⟩
      · rw [migrateLoop_cons_ok c m done w hm hr]
        exact h2
      · rw [migrateLoop_cons_ok c m done w hm hr, migrateLoop_cons_ok c m ms w hm hr]
        exact h3
    · exact ⟨[], m :: ms, rfl, rfl, e, hr, migrateLoop_cons_err c m ms w hm e hr⟩

theorem migrateLoop_done (c : Int) (hc : NilVersion ≤ c) (done : List (Migration σ)) :
    ∀ (w : World σ), (∀ m ∈ done, c < m.Version) →
      (migrateLoop true c done w).1 = none →
      (migrateLoop true c done w).2.ops = w.ops ++ done.map (fun m => Event.up m.Version) ∧
        (migrateLoop true c done w).2.stored =
          (match done.getLast? with
            | none => w.stored
            | some m => (m.Version, false)) := by
  induction done with
  | nil =>
    intro w _ _
    exact ⟨by simp [migrateLoop], rfl⟩
  | cons m rest ih =>
    intro w hall hok
    have hm : c < m.Version := hall m (by simp)
    rcases hr : (run m true w).1 with _ | e
    · rw [migrateLoop_cons_ok c m rest w hm hr] at hok ⊢
      obtain ⟨h1, h2⟩ := ih (run m true w).2 (fun x hx => hall x (by simp [hx])) hok
      have hops := (run_ok m true w hr).1
      have hst := (run_ok_stored m w hr).1
      have h0 : 0 ≤ m.Version := by unfold NilVersion at hc; omega
      rw [if_pos h0] at hst
      refine ⟨?_, ?_⟩
      · rw [h1, hops]
        simp [opEvent]
      · rw [h2]
        cases rest with
        | nil => simpa using hst
        | cons x xs =>
          rw [List.getLast?_cons_cons]
          rcases hl : (x :: xs).getLast? with _ | l
          · simp at hl
          · rfl
    · rw [migrateLoop_cons_err c m rest w hm e hr] at hok
      simp at hok

theorem sortSort_strict (migs : List (Migration σ))
    (h : (migs.map (fun m => m.Version)).Nodup) :
    (sortSort migs).Pairwise (fun x y => x.Version < y.Version) := by
  have hp : ((sortSort migs).map (fun m => m.Version)).Nodup :=
    ((sortSort_perm migs).map _).nodup_iff.2 h
  rw [List.Nodup, List.pairwise_map] at hp
  exact ((sortSort_sorted migs).and hp).imp (fun h => lt_of_le_of_ne h.1 h.2)

/-! ### Progress when no call fails -/

theorem execDelete_quiet (w : World σ) (hq : Quiet w.script) (ht : w.work.table ≠ none) :
    (execDelete w).1 = none := by
  unfold execDelete
  have hc := call_fst_of_quiet w hq
  rcases hcc : w.call with ⟨_ | e, w1⟩
  · have hw : w1 = w.call.2 := by rw [hcc]
    simp only []
    rcases htt : w1.work.table with _ | rows
    · rw [hw] at htt
      simp at htt
      exact absurd htt ht
    · rfl
  · rw [hcc] at hc
    simp at hc

theorem execInsert_quiet (v : Int) (d : Bool) (w : World σ) (hq : Quiet w.script)
    (ht : w.work.table ≠ none) : (execInsert v d w).1 = none := by
  unfold execInsert
  have hc := call_fst_of_quiet w hq
  rcases hcc : w.call with ⟨_ | e, w1⟩
  · have hw : w1 = w.call.2 := by rw [hcc]
    simp only []
    rcases htt : w1.work.table with _ | rows
    · rw [hw] at htt
      simp at htt
      exact absurd htt ht
    · rfl
  · rw [hcc] at hc
    simp at hc

theorem SetVersion_quiet (v : Int) (d : Bool) (w : World σ) (hq : Quiet w.script)
    (ht : w.work.table ≠ none) : (SetVersion v d w).1 = none := by
  have hd := execDelete_quiet w hq ht
  have hdt := (execDelete_ok w hd).1
  have hq1 := (execDelete_same w).ext.quiet hq
  unfold SetVersion
  rcases hdd : execDelete w with ⟨_ | e, w1⟩
  · rw [hdd] at hdt hq1
    simp only [] at hdt hq1 ⊢
    split
    · have hi := execInsert_quiet v d w1 hq1 (by rw [hdt]; simp)
      rcases hii : execInsert v d w1 with ⟨_ | e, w2⟩
      · rfl
      · rw [hii] at hi
        simp at hi
    · rfl
  · rw [hdd] at hd
    simp at hd

theorem applyUnit_quiet (m : Migration σ) (w : World σ) (hq : Quiet w.script)
    (ht : w.work.table ≠ none) (hop : ∀ s, (m.Up s).1 = none) :
    (applyUnit m true w).1 = none := by
  rw [applyUnit_eq]
  have h1 := SetVersion_quiet m.Version true w hq ht
  have ht1 := (SetVersion_ok m.Version true w h1).1
  have hq1 := (SetVersion_same m.Version true w).ext.quiet hq
  have h2 : (callOp m true (SetVersion m.Version true w).2).1 = none := by
    simp only [callOp, if_true, callUp]
    exact hop _
  rw [h2]
  simp only []
  apply SetVersion_quiet
  · exact (callOp_ext m true _).quiet hq1
  · rw [callOp_table, ht1]
    simp

theorem run_progress (m : Migration σ) (w : World σ) (hq : Quiet w.script)
    (hl : LockReady w) (ht : w.committed.table ≠ none) (hclean : w.stored.2 = false)
    (hno : ¬ OutOfOrder true w.stored.1 m.Version) (hop : ∀ s, (m.Up s).1 = none) :
    (run m true w).1 = none := by
  have hb := BeginTxx_quiet w hq
  have hs1 := BeginTxx_same w
  have hw1 := BeginTxx_work w hb
  have hlk := lock_quiet_ready (BeginTxx w).2 (hs1.ext.quiet hq) (hs1.ext.lockReady hl)
  have hs2 := hs1.next (lock_same (BeginTxx w).2)
  have hw2 : (lock (BeginTxx w).2).2.work = w.committed := by rw [lock_work, hw1]
  obtain ⟨rows, hrows⟩ : ∃ rows, w.committed.table = some rows := by
    rcases h : w.committed.table with _ | rows
    · exact absurd h ht
    · exact ⟨rows, rfl⟩
  have hv := Version_executed (lock (BeginTxx w).2).2 rows
    (call_fst_of_quiet _ (hs2.ext.quiet hq)) (by rw [hw2, hrows])
  have hpk : peek (some rows) = w.stored := by unfold World.stored; rw [hrows]
  rw [hpk] at hv
  have hs3 := hs2.next (Version_same (lock (BeginTxx w).2).2)
  have hw3 : (Version (lock (BeginTxx w).2).2).2.work = w.committed := by
    rw [Version_work, hw2]
  have hbody : runBody m true (lock (BeginTxx w).2).2
      = applyUnit m true (Version (lock (BeginTxx w).2).2).2 :=
    runBody_apply m true _ (by rw [hv]; exact hclean) (by rw [hv]; exact hno)
  have happ := applyUnit_quiet m (Version (lock (BeginTxx w).2).2).2 (hs3.ext.quiet hq)
    (by rw [hw3]; exact ht) hop
  have hext4 := hs3.ext.seq (applyUnit_ext m true (Version (lock (BeginTxx w).2).2).2)
  have hun := unlock_quiet_ready _ (hext4.quiet hq) (hext4.lockReady hl)
  have hwl : (withLock (runBody m true) (BeginTxx w).2).1 = none := by
    rw [withLock_locked _ _ hlk, hbody]
    simp only []
    rw [happ, hun]
    rfl
  unfold run
  rw [tx_body_ok _ w hb hwl]
  apply Commit_quiet
  have : Ext w (withLock (runBody m true) (BeginTxx w).2).2 :=
    hs1.ext.seq (withLock_ext _ (runBody_ext m true) _)
  exact this.quiet hq

theorem wrap64_succ (c : Int) (h0 : 0 ≤ c) (h1 : c + 1 ≤ maxInt64) : wrap64 (c + 1) = c + 1 := by
  unfold wrap64
  unfold maxInt64 at h1
  omega

theorem migrateLoop_contiguous (ms : List (Migration σ)) :
    ∀ (w : World σ),
      ms.Chain' (fun a b => b.Version = a.Version + 1) →
      (∀ m ∈ ms, m.Version ≤ maxInt64) → (∀ m ∈ ms, ∀ s, (m.Up s).1 = none) →
      Quiet w.script → LockReady w → w.committed.table ≠ none → w.stored.2 = false →
      (w.stored.1 = NilVersion ∨
        (0 ≤ w.stored.1 ∧ ∀ m ∈ ms.head?, m.Version = w.stored.1 + 1)) →
      (migrateLoop true NilVersion ms w).1 = none ∧
        (migrateLoop true NilVersion ms w).2.stored =
          (match ms.getLast? with
            | none => w.stored
            | some l => if 0 ≤ l.Version then (l.Version, false) else (NilVersion, false)) := by
  induction ms with
  | nil =>
    intro w _ _ _ _ _ _ _ _
    exact ⟨rfl, rfl⟩
  | cons m rest ih =>
    intro w hchain hmax hops hq hl ht hclean hinv
    have hchain2 : rest.Chain' (fun a b => b.Version = a.Version + 1) := hchain.tail
    have hmax2 : ∀ x ∈ rest, x.Version ≤ maxInt64 := fun x hx => hmax x (by simp [hx])
    have hops2 : ∀ x ∈ rest, ∀ s, (x.Up s).1 = none := fun x hx => hops x (by simp [hx])
    by_cases hm : NilVersion < m.Version
    · have h0 : 0 ≤ m.Version := by unfold NilVersion at hm; omega
      have hno : ¬ OutOfOrder true w.stored.1 m.Version := by
        unfold OutOfOrder
        rintro (⟨-, h1, h2⟩ | ⟨h1, -⟩)
        · rcases hinv with h | ⟨h3, h4⟩
          · exact h1 h
          · have h5 := h4 m (by simp)
            have h6 := hmax m (by simp)
            rw [wrap64_succ _ h3 (by omega)] at h2
            exact h2 h5
        · simp at h1
      have hr := run_progress m w hq hl ht hclean hno (hops m (by simp))
      obtain ⟨hst, hex⟩ := run_ok_stored m w hr
      rw [if_pos h0] at hst
      have hext := run_ext m true w
      obtain ⟨h1, h2⟩ := ih (run m true w).2 hchain2 hmax2 hops2 (hext.quiet hq)
        (hext.lockReady hl) hex (by rw [hst]) (Or.inr ⟨by rw [hst]; exact h0, by
          intro x hx
          rw [hst]
          cases rest with
          | nil => simp at hx
          | cons y ys =>
            simp at hx
            subst hx
            exact (List.chain'_cons.1 hchain).1⟩)
      rw [migrateLoop_cons_ok NilVersion m rest w hm hr]
      refine ⟨h1, ?_⟩
      rw [h2]
      cases rest with
      | nil => simp [hst, h0]
      | cons x xs =>
        rw [List.getLast?_cons_cons]
        rcases hlast : (x :: xs).getLast? with _ | l
        · simp at hlast
        · rfl
    · have hneg : ¬ 0 ≤ m.Version := by unfold NilVersion at hm; omega
      have hnil : w.stored.1 = NilVersion := by
        rcases hinv with h | ⟨h3, h4⟩
        · exact h
        · have h5 := h4 m (by simp)
          omega
      obtain ⟨h1, h2⟩ := ih w hchain2 hmax2 hops2 hq hl ht hclean (Or.inl hnil)
      rw [migrateLoop_cons_skip NilVersion m rest w hm]
      refine ⟨h1, ?_⟩
      rw [h2]
      cases rest with
      | nil =>
        have : w.stored = (NilVersion, false) := by
          rw [← hnil, ← hclean]
        simp [hneg, this]
      | cons x xs =>
        rw [List.getLast?_cons_cons]

theorem sortSort_of_chain (ms : List (Migration σ))
    (h : ms.Chain' (fun a b => b.Version = a.Version + 1)) : sortSort ms = ms := by
  have : IsTrans (Migration σ) (fun x y => x.Version ≤ y.Version) :=
    ⟨fun x y z h1 h2 => le_trans h1 h2⟩
  apply List.Sorted.insertionSort_eq
  apply List.chain'_iff_pairwise.1
  exact h.imp (fun {a b} hab => by omega)

end Primitives

/-! ## The claims -/

section Claims

/-- C10: a successful `SetVersion(v, d)` leaves, whatever the table held
before, exactly the row `(v, d)` when `v ≥ 0` and no row when `v < 0`, so at
most one row; a `Version` read made next in the same transaction, when its
query is executed, returns `(v, d)` when `v ≥ 0` and `(NilVersion, false)`
when `v < 0`, with no error. -/
theorem SetVersion_replaces_table (w : World σ) (v : Int) (d : Bool)
    (h : (SetVersion v d w).1 = none) :
    (SetVersion v d w).2.work.table = some (if 0 ≤ v then [(v, d)] else []) ∧
      (∀ rows, (SetVersion v d w).2.work.table = some rows → rows.length ≤ 1) ∧
      ((SetVersion v d w).2.call.1 = none →
        (Version (SetVersion v d w).2).1 =
          if 0 ≤ v then (v, d, none) else (NilVersion, false, none)) := by
  have ht := (SetVersion_ok v d w h).1
  refine ⟨ht, ?_, ?_⟩
  · intro rows hr
    rw [ht] at hr
    cases hr
    split <;> simp
  · intro hc
    rw [Version_executed _ _ hc ht]
    by_cases hv : 0 ≤ v <;> simp [hv, peek]

/-- A witness of C10: a table of two rows, one of them dirty, is replaced by
the single row `(3, true)`, which the next read returns. -/
theorem SetVersion_replaces_table_witness :
    (SetVersion 3 true (sqliteWorld (some [(1, false), (2, true)]) [])).1 = none ∧
      (SetVersion 3 true (sqliteWorld (some [(1, false), (2, true)]) [])).2.work.table
        = some [(3, true)] ∧
      (Version (SetVersion 3 true (sqliteWorld (some [(1, false), (2, true)]) [])).2).1
        = (3, true, none) :=
  ⟨rfl,
    (SetVersion_replaces_table (sqliteWorld (some [(1, false), (2, true)]) []) 3 true rfl).1,
    (SetVersion_replaces_table (sqliteWorld (some [(1, false), (2, true)]) []) 3 true rfl).2.2
      rfl⟩

/-- C9: `withLock`.  When the acquisition fails the body is not run and no
release is attempted: the result is the error and the state of the failed
acquisition.  When it succeeds the release is attempted once, after the
body: the result is nil when both succeed, the error of the body when only
the body fails, the error of the release when only the release fails, and
when both fail the `MultiError` of the two, in that order, whose text is the
two messages joined by a newline; `multiError` keeps the entries that are
not nil, in order. -/
theorem withLock_releases (f : World σ → error × World σ) (w : World σ) :
    (∀ e, (lock w).1 = some e →
      withLock f w = (some e, (lock w).2) ∧ (withLock f w).2.trace = w.trace ++ [.lock]) ∧
    ((lock w).1 = none →
      (withLock f w).2 = (unlock (f (lock w).2).2).2 ∧
      (withLock f w).2.trace = (f (lock w).2).2.trace ++ [.unlock] ∧
      (withLock f w).1 =
        (match (f (lock w).2).1, (unlock (f (lock w).2).2).1 with
          | none, none => none
          | some e, none => some e
          | none, some eu => some eu
          | some e, some eu => some (.MultiError [e, eu]))) ∧
    (∀ e eu : GoError, (GoError.MultiError [e, eu]).Error = e.Error ++ "\n" ++ eu.Error) ∧
    (∀ errs : List error, multiError errs = .MultiError (errs.filterMap id)) := by
  refine ⟨?_, ?_, ?_, ?_⟩
  · intro e he
    rw [withLock_lock_err f w e he]
    exact ⟨rfl, lock_trace w⟩
  · intro hl
    rw [withLock_locked f w hl]
    refine ⟨rfl, unlock_trace _, ?_⟩
    simp only []
    rcases (f (lock w).2).1 with _ | e <;>
      rcases (unlock (f (lock w).2).2).1 with _ | eu <;>
      simp [released, multiError, compactErrs]
  · intro e eu
    simp [GoError.Error, errorTexts, stringsJoin]
  · intro errs
    simp [multiError, compactErrs_eq]

/-- A witness of C9 on a postgres database whose release fails: a body that
fails with `ErrDirty` gives the compound error of the two. -/
theorem withLock_releases_witness :
    (lock (postgresWorld (some []) [none, some connLost])).1 = none ∧
      (withLock (fun t => (some GoError.ErrDirty, t))
        (postgresWorld (some []) [none, some connLost])).1
        = some (.MultiError [.ErrDirty, connLost]) :=
  ⟨rfl,
    ((withLock_releases (fun t => (some GoError.ErrDirty, t))
      (postgresWorld (some []) [none, some connLost])).2.1 rfl).2.2⟩

/-- C4: a step up on a unit whose forward operation returns an error returns
an error and commits nothing: the committed content, and so the pair
`(version, dirty)` read afterwards, is the one held before the step, never
the dirty row written inside the step; when the transaction was opened the
step ends with its rollback. -/
theorem run_up_failure_rolls_back (m : Migration σ) (w : World σ)
    (hfail : ∀ s, (m.Up s).1 ≠ none) :
    (run m true w).1 ≠ none ∧
      (run m true w).2.committed = w.committed ∧
      (run m true w).2.stored = w.stored ∧
      ((BeginTxx w).1 = none →
        (run m true w).2 = Rollback (withLock (runBody m true) (BeginTxx w).2).2) := by
  have hbody : ∀ t, (runBody m true t).1 ≠ none := by
    intro t
    rcases runBody_cases m true t with ⟨e, h⟩ | h
    · rw [h]; simp
    · rw [h]
      apply applyUnit_err_of_op
      simp only [callOp, if_true, callUp]
      exact hfail _
  have hstep : ∀ t, (withLock (runBody m true) t).1 ≠ none := withLock_err _ hbody
  have herr : (run m true w).1 ≠ none := tx_err_of_body _ hstep w
  have hcom := run_err m true w herr
  refine ⟨herr, hcom, by simp [World.stored, hcom], ?_⟩
  intro hb
  rcases hs : (withLock (runBody m true) (BeginTxx w).2).1 with _ | e
  · exact absurd hs (hstep _)
  · unfold run
    rw [tx_body_err _ w e hb hs]

/-- A witness of C4: on a store at `(NilVersion, false)` the step of a unit
of version 1 writes the dirty row `(1, true)`, the operation fails, and the
store reads `(NilVersion, false)` afterwards. -/
theorem run_up_failure_rolls_back_witness :
    (SetVersion 1 true (Version (lock (BeginTxx (sqliteWorld (some []) [])).2).2).2).2.work.table
        = some [(1, true)] ∧
      (run (brokenUnit 1 "a") true (sqliteWorld (some []) [])).1
        = some (.errorString "syntax error") ∧
      (run (brokenUnit 1 "a") true (sqliteWorld (some []) [])).2.stored
        = (NilVersion, false) :=
  ⟨rfl, rfl,
    (run_up_failure_rolls_back (brokenUnit 1 "a") (sqliteWorld (some []) [])
      (fun _ => by simp [brokenUnit, brokenColumn])).2.2.1⟩

/-- C3: when the transaction of a step is opened, the lock is acquired and
the version is read again as `(c, false)` without error, the step returns
`ErrOutOfOrder` without calling an operation and leaves the committed content
as it was exactly when the monotonicity requirement is violated: for up, `c`
is not `NilVersion` and the version of the unit is not `c + 1`; for down, the
version of the unit is not `c`.  This is the result when the release of the
lock succeeds; when the release fails with `eu` as well, the refused step
returns the compound error of `ErrOutOfOrder` and `eu`, as `withLock` has
it.  When the requirement holds the operation is called.  The sum `c + 1` is
the `int64` sum, which is `c + 1` below the greatest `int64`.  As an
instance, `Up` with only a unit of version 3 on a store at version 1 returns
`ErrOutOfOrder` and the store still reads `(1, false)`. -/
theorem run_outOfOrder_iff (m : Migration σ) (up : Bool) (w : World σ) (c : Int)
    (hbegin : (BeginTxx w).1 = none)
    (hlock : (lock (BeginTxx w).2).1 = none)
    (hread : (Version (lock (BeginTxx w).2).2).1 = (c, false, none)) :
    ((unlock (Version (lock (BeginTxx w).2).2).2).1 = none →
        (((run m up w).1 = some .ErrOutOfOrder ∧ (run m up w).2.ops = w.ops ∧
          (run m up w).2.committed = w.committed) ↔ OutOfOrder up c m.Version)) ∧
      (∀ eu, (unlock (Version (lock (BeginTxx w).2).2).2).1 = some eu →
        OutOfOrder up c m.Version →
        (run m up w).1 = some (.MultiError [.ErrOutOfOrder, eu]) ∧
          (run m up w).2.ops = w.ops ∧ (run m up w).2.committed = w.committed) ∧
      (¬ OutOfOrder up c m.Version → (run m up w).2.ops = w.ops ++ [opEvent m up]) ∧
      (minInt64 ≤ c → c < maxInt64 →
        (OutOfOrder up c m.Version ↔
          (up = true ∧ c ≠ NilVersion ∧ m.Version ≠ c + 1) ∨ (up = false ∧ m.Version ≠ c))) ∧
      (Up [columnUnit 3 "c"] (sqliteWorld (some [(1, false)]) [])).1
        = .returned (some .ErrOutOfOrder) ∧
      (Up [columnUnit 3 "c"] (sqliteWorld (some [(1, false)]) [])).2.stored = (1, false) := by
  have hd : (Version (lock (BeginTxx w).2).2).1.2.1 = false := by rw [hread]
  have hc : (Version (lock (BeginTxx w).2).2).1.1 = c := by rw [hread]
  have hops : (run m up w).2.ops = (runBody m up (lock (BeginTxx w).2).2).2.ops := by
    unfold run
    rw [tx_ops_begun _ w hbegin, withLock_ops_locked _ _ hlock]
  have hbase : (Version (lock (BeginTxx w).2).2).2.ops = w.ops := by
    rw [(Version_same _).ops, (lock_same _).ops, (BeginTxx_same w).ops]
  have hcalled : ¬ OutOfOrder up c m.Version →
      (run m up w).2.ops = w.ops ++ [opEvent m up] := by
    intro hno
    rw [hops, runBody_apply m up _ hd (by rw [hc]; exact hno), applyUnit_ops, hbase]
  have hrefused : ∀ errU, (unlock (Version (lock (BeginTxx w).2).2).2).1 = errU →
      OutOfOrder up c m.Version →
      (run m up w).1 = released (some .ErrOutOfOrder) errU ∧
        (run m up w).2.ops = w.ops ∧ (run m up w).2.committed = w.committed := by
    intro errU hrelease ho
    have hb := runBody_outOfOrder m up _ hd (by rw [hc]; exact ho)
    have hw : withLock (runBody m up) (BeginTxx w).2 =
        (released (some .ErrOutOfOrder) errU,
          (unlock (Version (lock (BeginTxx w).2).2).2).2) := by
      rw [withLock_locked _ _ hlock, hb]
      simp only []
      rw [hrelease]
    obtain ⟨e, he⟩ : ∃ e, released (some .ErrOutOfOrder) errU = some e := by
      cases errU <;> simp [released]
    have hr : (run m up w).1 = released (some .ErrOutOfOrder) errU := by
      unfold run
      rw [tx_body_err _ w e hbegin (by rw [hw, he]), he]
    refine ⟨hr, ?_, run_err m up w (by rw [hr, he]; simp)⟩
    rw [hops, hb]
    exact hbase
  refine ⟨?_, ?_, hcalled, ?_, rfl, rfl⟩
  · intro hrelease
    constructor
    · rintro ⟨-, ho, -⟩
      by_contra hno
      rw [hcalled hno] at ho
      simp at ho
    · intro ho
      exact hrefused none hrelease ho
  · intro eu hrelease ho
    exact hrefused (some eu) hrelease ho
  · intro h1 h2
    have hw : wrap64 (c + 1) = c + 1 := by
      unfold wrap64
      unfold minInt64 at h1
      unfold maxInt64 at h2
      omega
    unfold OutOfOrder
    rw [hw]

/-- A witness of C3 on a postgres database: a store at `(1, false)` and a unit
of version 3, up. -/
theorem run_outOfOrder_iff_witness :
    (BeginTxx (postgresWorld (some [(1, false)]) [])).1 = none ∧
      OutOfOrder true 1 3 ∧
      (run (columnUnit 3 "c") true (postgresWorld (some [(1, false)]) [])).1
        = some .ErrOutOfOrder :=
  ⟨rfl, by decide,
    ((((run_outOfOrder_iff (columnUnit 3 "c") true (postgresWorld (some [(1, false)]) []) 1
      rfl rfl rfl).1 rfl).2) (by decide)).1⟩

/-- C2: when the first transaction is opened, the table is ensured and the
read returns a row with `dirty = true`, both `Up` and `Down` return
`ErrDirty`, call no operation of any unit and leave the committed content,
and so the stored row, as it was. -/
theorem migrate_dirty (migs : List (Migration σ)) (w : World σ) (v : Int)
    (hbegin : (BeginTxx w).1 = none)
    (hensure : (ensureVersionTable (BeginTxx w).2).1 = none)
    (hread : (Version (ensureVersionTable (BeginTxx w).2).2).1 = (v, true, none)) :
    ((Up migs w).1 = .returned (some .ErrDirty) ∧ (Up migs w).2.ops = w.ops ∧
        (Up migs w).2.committed = w.committed) ∧
      ((Down migs w).1 = .returned (some .ErrDirty) ∧ (Down migs w).2.ops = w.ops ∧
        (Down migs w).2.committed = w.committed) := by
  have hrs : readState (BeginTxx w).2 =
      (some .ErrDirty, v, (Version (ensureVersionTable (BeginTxx w).2).2).2) := by
    unfold readState
    rcases he : ensureVersionTable (BeginTxx w).2 with ⟨_ | e, w1⟩
    · rw [he] at hread
      simp only [] at hread ⊢
      rcases hv : Version w1 with ⟨⟨c, d, e⟩, w2⟩
      rw [hv] at hread
      cases hread
      simp
    · rw [he] at hensure
      simp at hensure
  have hsame := (BeginTxx_same w).next (readState_same (BeginTxx w).2)
  have key : ∀ up, (migrate migs up w).1 = .returned (some .ErrDirty) ∧
      (migrate migs up w).2.ops = w.ops ∧ (migrate migs up w).2.committed = w.committed := by
    intro up
    have hm : migrate migs up w = (.returned (some .ErrDirty),
        Rollback (Version (ensureVersionTable (BeginTxx w).2).2).2) := by
      unfold migrate
      rcases hb : BeginTxx w with ⟨_ | e, w1⟩
      · rw [hb] at hrs
        simp only [] at hrs ⊢
        rw [hrs]
      · rw [hb] at hbegin
        simp at hbegin
    rw [hrs] at hsame
    rw [hm]
    exact ⟨rfl, by rw [(Rollback_same _).ops, hsame.ops],
      by rw [(Rollback_same _).committed, hsame.committed]⟩
  exact ⟨key true, key false⟩

/-- A witness of C2: a store that holds the row `(2, true)`. -/
theorem migrate_dirty_witness :
    (Version (ensureVersionTable (BeginTxx (sqliteWorld (some [(2, true)]) [])).2).2).1
        = (2, true, none) ∧
      (Up [columnUnit 3 "c"] (sqliteWorld (some [(2, true)]) [])).1
        = .returned (some .ErrDirty) ∧
      (Down [columnUnit 2 "b"] (sqliteWorld (some [(2, true)]) [])).1
        = .returned (some .ErrDirty) :=
  ⟨rfl,
    (migrate_dirty [columnUnit 3 "c"] (sqliteWorld (some [(2, true)]) []) 2 rfl rfl rfl).1.1,
    rfl⟩

/-- C7, on the code: `Up` visits the units in ascending order of version, a
permutation of its input, but `Down` does not order the units.  `sort.Reverse`
only wraps the slice, and the assertion of the wrapper to the type `sorted`
fails, so `Down` never returns nil: it returns the error of the first
transaction or panics before the loop, and calls no operation.  With the
units of versions 1 and 2 on a store at `(2, false)` it panics and the store
still reads `(2, false)`. -/
theorem Down_never_sorts (migs : List (Migration σ)) (w : World σ) :
    ((sortSort migs).Perm migs ∧
        (sortSort migs).Pairwise (fun x y => x.Version ≤ y.Version)) ∧
      assertSorted (sortReverse (.sorted migs)) = none ∧
      (Down migs w).1 ≠ .returned none ∧ (Down migs w).2.ops = w.ops ∧
      (Down [columnUnit 1 "a", columnUnit 2 "b"] (sqliteWorld (some [(2, false)]) [])).1
        = .panicked ∧
      (Down [columnUnit 1 "a", columnUnit 2 "b"]
        (sqliteWorld (some [(2, false)]) [])).2.stored = (2, false) := by
  refine ⟨⟨sortSort_perm migs, sortSort_sorted migs⟩, rfl, ?_, ?_, rfl, rfl⟩
  · unfold Down migrate
    rcases BeginTxx w with ⟨_ | e, w1⟩
    · simp only []
      rcases readState w1 with ⟨_ | e, c, w2⟩
      · simp only []
        rcases Commit w2 with ⟨_ | e, w3⟩
        · simp [assertSorted, sortReverse]
        · simp
      · simp
    · simp
  · unfold Down migrate
    have h1 := BeginTxx_same w
    rcases hb : BeginTxx w with ⟨_ | e, w1⟩
    · rw [hb] at h1
      have h2 := readState_same w1
      simp only []
      rcases hr : readState w1 with ⟨_ | e, c, w2⟩
      · rw [hr] at h2
        have h3 := Commit_ops w2
        simp only []
        rcases hc : Commit w2 with ⟨_ | e, w3⟩
        · rw [hc] at h3
          simp only [assertSorted, sortReverse, Bool.false_eq_true, if_false]
          exact h3.trans (h2.ops.trans h1.ops)
        · rw [hc] at h3
          exact h3.trans (h2.ops.trans h1.ops)
      · rw [hr] at h2
        exact (Rollback_same _).ops.trans (h2.ops.trans h1.ops)
    · rw [hb] at h1
      exact h1.ops

/-- C8, on the code: database errors inside a step do not abort it.  Once the
checks have passed the operation is called whatever the dirty write
returned.  On a mysql store at `(NilVersion, false)` and a unit of version 1,
up: when the read of the version fails with a server error the step takes the
version to be 0, calls the operation, commits and returns nil; when the
`DELETE` of the dirty write fails the step calls the operation, commits and
returns nil. -/
theorem run_ignores_database_errors :
    (∀ (m : Migration Columns) (up : Bool) (w : World Columns),
      (applyUnit m up w).2.ops = w.ops ++ [opEvent m up]) ∧
    ((Version (lock (BeginTxx (mysqlWorld (some []) [none, none, some queryInterrupted])).2).2).1
        = (0, false, some queryInterrupted) ∧
      (run (columnUnit 1 "a") true
        (mysqlWorld (some []) [none, none, some queryInterrupted])).1 = none ∧
      (run (columnUnit 1 "a") true
        (mysqlWorld (some []) [none, none, some queryInterrupted])).2.trace
        = [.begin, .lock, .up 1, .unlock, .commit] ∧
      (run (columnUnit 1 "a") true
        (mysqlWorld (some []) [none, none, some queryInterrupted])).2.committed.table
        = some [(1, false)]) ∧
    ((SetVersion 1 true (Version (lock (BeginTxx
        (mysqlWorld (some []) [none, none, none, some lockWaitTimeout])).2).2).2).1
        = some lockWaitTimeout ∧
      (run (columnUnit 1 "a") true
        (mysqlWorld (some []) [none, none, none, some lockWaitTimeout])).1 = none ∧
      (run (columnUnit 1 "a") true
        (mysqlWorld (some []) [none, none, none, some lockWaitTimeout])).2.trace
        = [.begin, .lock, .up 1, .unlock, .commit] ∧
      (run (columnUnit 1 "a") true
        (mysqlWorld (some []) [none, none, none, some lockWaitTimeout])).2.committed.table
        = some [(1, false)]) :=
  ⟨fun m up w => applyUnit_ops m up w, ⟨rfl, rfl, rfl, rfl⟩, ⟨rfl, rfl, rfl, rfl⟩⟩

/-- C1 as stated fails.  With the units of versions 1 and 3, both operations
of which succeed, on a store at `(NilVersion, false)` and with every database
call executed, `Up` returns `ErrOutOfOrder`.  With the single unit of version
1, `Up` returns nil and leaves `(1, false)`, and the `Down` that follows
panics and leaves `(1, false)`, not `(NilVersion, false)`.  The loop of
`Down` would have passed over the unit of version 1 on that store, and a step
down of that unit leaves `(0, false)`. -/
theorem Up_then_Down_counterexample :
    (Up [columnUnit 1 "a", columnUnit 3 "c"] (sqliteWorld none [])).1
        = .returned (some .ErrOutOfOrder) ∧
      (Up [columnUnit 1 "a"] (sqliteWorld none [])).1 = .returned none ∧
      (Up [columnUnit 1 "a"] (sqliteWorld none [])).2.stored = (1, false) ∧
      (Down [columnUnit 1 "a"] (Up [columnUnit 1 "a"] (sqliteWorld none [])).2).1
        = .panicked ∧
      (Down [columnUnit 1 "a"] (Up [columnUnit 1 "a"] (sqliteWorld none [])).2).2.stored
        = (1, false) ∧
      ((1 : Int), false) ≠ (NilVersion, false) ∧
      (migrateLoop false 1 [columnUnit 1 "a"]
        (Up [columnUnit 1 "a"] (sqliteWorld none [])).2).2.stored = (1, false) ∧
      (run (columnUnit 1 "a") false (Up [columnUnit 1 "a"] (sqliteWorld none [])).2).2.stored
        = (0, false) :=
  ⟨rfl, rfl, rfl, rfl, rfl, by decide, rfl, rfl⟩

/-- C5: when every database call is executed and `Up(units)` returns nil,
a second `Up(units)` made right after it calls no operation of any unit,
returns nil and leaves the committed content, and so the stored
`(version, dirty)`, as it was. -/
theorem Up_twice (units : List (Migration σ)) (w : World σ) (hq : Quiet w.script)
    (h1 : (Up units w).1 = .returned none) :
    (Up units (Up units w).2).1 = .returned none ∧
      (Up units (Up units w).2).2.ops = (Up units w).2.ops ∧
      (Up units (Up units w).2).2.committed = (Up units w).2.committed ∧
      (Up units (Up units w).2).2.stored = (Up units w).2.stored := by
  have hfirst := firstRead_of_quiet w hq
  have hclean : w.stored.2 = false := by
    cases hd : w.stored.2
    · rfl
    · have := migrate_dirty_of_read units true w hfirst hd
      unfold Up at h1
      rw [this] at h1
      simp at h1
  have hup := Up_of_read units w hfirst hclean
  have hres : (migrateLoop true w.stored.1 (sortSort units) (afterRead w)).1 = none := by
    rw [hup] at h1
    simpa using h1
  obtain ⟨hext, -, htab, -, hst⟩ := afterRead_facts w hfirst
  obtain ⟨hb, hc, ht, hall⟩ := migrateLoop_bound w.stored.1 (sortSort units) (afterRead w)
    w.stored.1 (sortSort_sorted units) (fun m _ hm => le_of_lt hm) (by rw [hst])
    (by rw [hst]; exact hclean) (by rw [htab]; simp) hres
  have hw : (Up units w).2 = (migrateLoop true w.stored.1 (sortSort units) (afterRead w)).2 := by
    rw [hup]
  have hq2 := (hext.seq (migrateLoop_ext w.stored.1 (sortSort units) (afterRead w))).quiet hq
  rw [hw]
  generalize (migrateLoop true w.stored.1 (sortSort units) (afterRead w)).2 = w2
    at hb hc ht hall hq2
  have hfirst2 := firstRead_of_quiet w2 hq2
  have hup2 := Up_of_read units w2 hfirst2 hc
  have hskip := migrateLoop_skip_all w2.stored.1 (sortSort units) (afterRead w2) (by
    intro m hm
    by_cases hcm : w.stored.1 < m.Version
    · exact hall m hm hcm
    · omega)
  rw [hskip] at hup2
  rw [hup2]
  obtain ⟨-, hops, htab2, hsch, hst2⟩ := afterRead_facts w2 hfirst2
  refine ⟨rfl, hops, ?_, hst2⟩
  apply store_ext _ _ _ hsch
  rw [htab2]
  rcases htt : w2.committed.table with _ | rows
  · exact absurd htt ht
  · rfl

/-- A witness of C5: the units of versions 2 and 1 on a fresh postgres
database. -/
theorem Up_twice_witness :
    (Up [columnUnit 2 "b", columnUnit 1 "a"] (postgresWorld none [])).1 = .returned none ∧
      (Up [columnUnit 2 "b", columnUnit 1 "a"] (postgresWorld none [])).2.ops
        = [.up 1, .up 2] ∧
      (Up [columnUnit 2 "b", columnUnit 1 "a"]
        (Up [columnUnit 2 "b", columnUnit 1 "a"] (postgresWorld none [])).2).2.ops
        = [.up 1, .up 2] :=
  ⟨rfl, rfl,
    (Up_twice [columnUnit 2 "b", columnUnit 1 "a"] (postgresWorld none []) (by decide)
      rfl).2.1⟩

/-- C6: on a clean store at version `c` (`NilVersion` or above) whose first
transaction goes through, `Up` on units of unique versions takes the units
in ascending order of version and runs a step for those above `c`, one after
the other.  These units split into `done`, whose steps all returned nil, and
`rest`.  When `rest` is empty `Up` returns nil and has called the operations
of `done`, in order.  Otherwise the step of the first unit `u` of `rest`
returned an error, `Up` returns that error, and beyond the operations of
`done` at most the operation of `u` was called, none of a later unit.  The
store then reads `(version of the last unit of done, false)`, or `(c, false)`
when `done` is empty. -/
theorem Up_fail_fast (units : List (Migration σ)) (w : World σ) (c : Int)
    (hnodup : (units.map (fun m => m.Version)).Nodup)
    (hstore : w.stored = (c, false)) (hnil : NilVersion ≤ c) (hfirst : FirstRead w) :
    (sortSort units).Perm units ∧
      (sortSort units).Pairwise (fun x y => x.Version < y.Version) ∧
      ∃ done rest,
        (sortSort units).filter (fun m => decide (c < m.Version)) = done ++ rest ∧
        (migrateLoop true c done (afterRead w)).1 = none ∧
        (Up units w).2.stored =
          (match done.getLast? with
            | none => (c, false)
            | some m => (m.Version, false)) ∧
        (match rest with
          | [] => (Up units w).1 = .returned none ∧
              (Up units w).2.ops = w.ops ++ done.map (fun m => Event.up m.Version)
          | u :: later => ∃ e,
              (run u true (migrateLoop true c done (afterRead w)).2).1 = some e ∧
              (Up units w).1 = .returned (some e) ∧
              ((Up units w).2.ops = w.ops ++ done.map (fun m => Event.up m.Version) ∨
                (Up units w).2.ops =
                  w.ops ++ (done.map (fun m => Event.up m.Version) ++ [Event.up u.Version])) ∧
              ∀ m ∈ later, Event.up m.Version ∉
                done.map (fun m => Event.up m.Version) ++ [Event.up u.Version]) := by
  have hstrict := sortSort_strict units hnodup
  refine ⟨sortSort_perm units, hstrict, ?_⟩
  have hclean : w.stored.2 = false := by rw [hstore]
  have hc : w.stored.1 = c := by rw [hstore]
  have hup := Up_of_read units w hfirst hclean
  rw [hc, migrateLoop_filter] at hup
  obtain ⟨-, hops0, -, -, hst0⟩ := afterRead_facts w hfirst
  have hall : ∀ m ∈ (sortSort units).filter (fun m => decide (c < m.Version)), c < m.Version := by
    intro m hm
    simpa using (List.mem_filter.1 hm).2
  obtain ⟨done, rest, hsplit, hok, hcase⟩ := migrateLoop_split c _ (afterRead w) hall
  have hdone := migrateLoop_done c hnil done (afterRead w)
    (fun m hm => hall m (by rw [hsplit]; simp [hm])) hok
  rw [hops0, hst0, hstore] at hdone
  have hstrict2 : (done ++ rest).Pairwise (fun x y => x.Version < y.Version) := by
    rw [← hsplit]
    exact hstrict.filter _
  refine ⟨done, rest, hsplit, hok, ?_, ?_⟩
  · cases rest with
    | nil =>
      simp only [] at hcase
      rw [hup, hcase]
      exact hdone.2
    | cons u later =>
      obtain ⟨e, he, hcase⟩ := hcase
      rw [hup, hcase]
      simp only []
      unfold World.stored
      rw [run_err u true _ (by rw [he]; simp)]
      exact hdone.2
  · cases rest with
    | nil =>
      simp only [] at hcase ⊢
      rw [hup, hcase]
      exact ⟨rfl, hdone.1⟩
    | cons u later =>
      obtain ⟨e, he, hcase⟩ := hcase
      refine ⟨e, he, by rw [hup, hcase], ?_, ?_⟩
      · rw [hup, hcase]
        simp only []
        rcases run_ops u true (migrateLoop true c done (afterRead w)).2 with h | h
        · left; rw [h, hdone.1]
        · right; rw [h, hdone.1]; simp [opEvent]
      · intro m hm hmem
        rw [List.pairwise_append] at hstrict2
        obtain ⟨-, hr, hcross⟩ := hstrict2
        rw [List.pairwise_cons] at hr
        rcases List.mem_append.1 hmem with h | h
        · obtain ⟨x, hx, hxe⟩ := List.mem_map.1 h
          have := hcross x hx m (by simp [hm])
          injection hxe with hxe
          omega
        · simp at h
          have := hr.1 m hm
          omega

/-- A witness of C6: the units of versions 3, 1 and 2, the last of which
fails, on a store at `(NilVersion, false)`: the step of 1 is committed, the
step of 2 fails, the operation of 3 is not called and the store reads
`(1, false)`. -/
theorem Up_fail_fast_witness :
    (Up [columnUnit 3 "c", columnUnit 1 "a", brokenUnit 2 "b"] (sqliteWorld none [])).1
        = .returned (some (.errorString "syntax error")) ∧
      (Up [columnUnit 3 "c", columnUnit 1 "a", brokenUnit 2 "b"] (sqliteWorld none [])).2.ops
        = [.up 1, .up 2] ∧
      (Up [columnUnit 3 "c", columnUnit 1 "a", brokenUnit 2 "b"] (sqliteWorld none [])).2.stored
        = (1, false) ∧
      (sortSort [columnUnit 3 "c", columnUnit 1 "a", brokenUnit 2 "b"]).Pairwise
        (fun x y => x.Version < y.Version) :=
  ⟨rfl, rfl, rfl,
    (Up_fail_fast [columnUnit 3 "c", columnUnit 1 "a", brokenUnit 2 "b"] (sqliteWorld none [])
      NilVersion (by decide) rfl (by decide) ⟨rfl, rfl, rfl, rfl⟩).2.1⟩

/-- C1, amended: for every list of units whose versions are consecutive (each
is the one before plus one, all within `int64`) and whose forward operations
succeed, on a store at `(NilVersion, false)`, with every database call
executed and the lock ready to be taken, `Up` returns nil and leaves the
store reading `(v, false)` for the last version `v` when `v ≥ 0`, and
`(NilVersion, false)` when there is no unit or `v < 0`; for the single unit of
version 1 it leaves `(1, false)`. -/
theorem Up_contiguous (units : List (Migration σ)) (w : World σ)
    (hchain : units.Chain' (fun a b => b.Version = a.Version + 1))
    (hmax : ∀ m ∈ units, m.Version ≤ maxInt64)
    (hops : ∀ m ∈ units, ∀ s, (m.Up s).1 = none)
    (hstore : w.stored = (NilVersion, false)) (hq : Quiet w.script) (hl : LockReady w) :
    (Up units w).1 = .returned none ∧
      (Up units w).2.stored =
        (match units.getLast? with
          | none => (NilVersion, false)
          | some l => if 0 ≤ l.Version then (l.Version, false) else (NilVersion, false)) ∧
      (Up [columnUnit 1 "a"] (sqliteWorld none [])).1 = .returned none ∧
      (Up [columnUnit 1 "a"] (sqliteWorld none [])).2.stored = (1, false) := by
  have hfirst := firstRead_of_quiet w hq
  have hclean : w.stored.2 = false := by rw [hstore]
  have hup := Up_of_read units w hfirst hclean
  rw [sortSort_of_chain units hchain] at hup
  obtain ⟨hext, -, htab, -, hst⟩ := afterRead_facts w hfirst
  have hc : w.stored.1 = NilVersion := by rw [hstore]
  rw [hc] at hup
  obtain ⟨h1, h2⟩ := migrateLoop_contiguous units (afterRead w) hchain hmax hops
    (hext.quiet hq) (hext.lockReady hl) (by rw [htab]; simp) (by rw [hst]; exact hclean)
    (Or.inl (by rw [hst]; exact hc))
  rw [hst, hstore] at h2
  rw [hup]
  exact ⟨by rw [h1], h2, rfl, rfl⟩

/-- A witness of C1, amended: the units of versions 0, 1 and 2 on a fresh
postgres database. -/
theorem Up_contiguous_witness :
    Quiet (postgresWorld none []).script ∧ LockReady (postgresWorld none []) ∧
      (Up [columnUnit 0 "a", columnUnit 1 "b", columnUnit 2 "c"] (postgresWorld none [])).1
        = .returned none ∧
      (Up [columnUnit 0 "a", columnUnit 1 "b", columnUnit 2 "c"]
        (postgresWorld none [])).2.stored = (2, false) :=
  ⟨by decide, ⟨by decide, rfl⟩,
    (Up_contiguous [columnUnit 0 "a", columnUnit 1 "b", columnUnit 2 "c"]
      (postgresWorld none []) (by simp [columnUnit]) (by decide)
      (by intro m hm s; simp at hm; rcases hm with rfl | rfl | rfl <;> rfl)
      rfl (by decide) ⟨by decide, rfl⟩).1,
    (Up_contiguous [columnUnit 0 "a", columnUnit 1 "b", columnUnit 2 "c"]
      (postgresWorld none []) (by simp [columnUnit]) (by decide)
      (by intro m hm s; simp at hm; rcases hm with rfl | rfl | rfl <;> rfl)
      rfl (by decide) ⟨by decide, rfl⟩).2.1⟩

end Claims

end Migratex
